import Mathlib

/-!
Verification of the DataAutomation_PowerBI repository
(src/ExportLongstanding.py and src/ImportLongstanding.py).

The Python code is shallowly embedded: each relevant Python function is
translated into an executable Lean definition, with pandas DataFrames modelled
as header-list-plus-rows tables, regular-expression search over the fixed
patterns of clean_days_value modelled as an explicit leftmost scan, and Python
numbers modelled as Nat / Int / Rat (Python ints are unbounded; the division
in clean_days_value is modelled exactly over the rationals).
-/

namespace PBI

/-! ## Numeric normalizer: ExportLongstanding.clean_days_value

The regex patterns are (in source order)
  (\d+)\s*to\s*(\d+), (\d+)\s*-\s*(\d+), (\d+)\s*en-dash\s*(\d+), (\d+)\s*~\s*(\d+)
searched with re.search (leftmost occurrence), followed by the single-number
pattern (\d+).  The character classes are modelled over their ASCII fragment:
digitCh is the ASCII digit class and isSpaceCh the ASCII whitespace class of
Python's \s and str.strip(). -/

def isSpaceCh (c : Char) : Bool :=
  c = ' ' || c = '\t' || c = '\n' || c = '\r' || c = Char.ofNat 11 || c = Char.ofNat 12

def digitCh (c : Char) : Bool :=
  48 ≤ c.toNat && c.toNat ≤ 57

/-- Value of a digit string, as computed by Python int() on a digit-only
string (no sign). -/
def natOfDigits (l : List Char) : Nat :=
  l.foldl (fun n c => 10 * n + (c.toNat - 48)) 0

def listStartsWith : List Char → List Char → Bool
  | [], _ => true
  | _ :: _, [] => false
  | a :: as, b :: bs => a = b && listStartsWith as bs

/-- Try to match the pattern digits, \s*, the literal separator, \s*, digits
at the very start of the character list; greedy digit runs are maximal runs
(no separator starts with a digit or a space, so backtracking inside a run can
never produce a match that the maximal run misses). -/
def matchRangeAt (sep l : List Char) : Option (Nat × Nat) :=
  let d1 := l.takeWhile digitCh
  if d1.isEmpty then none
  else
    let r1 := (l.dropWhile digitCh).dropWhile isSpaceCh
    if listStartsWith sep r1 then
      let r2 := (r1.drop sep.length).dropWhile isSpaceCh
      let d2 := r2.takeWhile digitCh
      if d2.isEmpty then none else some (natOfDigits d1, natOfDigits d2)
    else none

/-- re.search for one range pattern: scan candidate start positions left to
right, first successful position wins. -/
def searchRange (sep : List Char) : List Char → Option (Nat × Nat)
  | [] => none
  | c :: cs =>
    match matchRangeAt sep (c :: cs) with
    | some p => some p
    | none => searchRange sep cs

/-- re.search for the single pattern (\d+): value of the leftmost maximal
digit run. -/
def searchSingle : List Char → Option Nat
  | [] => none
  | c :: cs =>
    if digitCh c then some (natOfDigits ((c :: cs).takeWhile digitCh))
    else searchSingle cs

/-- Python str.strip(): drop whitespace from both ends. -/
def pyStrip (l : List Char) : List Char :=
  ((l.dropWhile isSpaceCh).reverse.dropWhile isSpaceCh).reverse

/-- str(days_value).strip().lower() -/
def prepDays (s : String) : List Char :=
  (pyStrip s.toList).map Char.toLower

def toSep : List Char := ['t', 'o']

def dashSep : List Char := ['-']

def enDashSep : List Char := ['–']

def tildeSep : List Char := ['~']

/-- Which branch of clean_days_value fired: a range pattern with its two
captured integers, the single-number pattern with its integer, or no numeric
content. -/
inductive DaysResult where
  | undefined : DaysResult
  | range (a b : Nat) : DaysResult
  | single (n : Nat) : DaysResult
deriving DecidableEq, Repr

/-- The control flow of ExportLongstandingConsolidator.clean_days_value: the
input is `none` for a missing value (pandas NaN, caught by pd.isna) and
`some s` for a string cell; the four range patterns are tried in source order
on the lowered, stripped string, first match winning, then the single-number
pattern, else undefined. -/
def clean_days_shape (days_value : Option String) : DaysResult :=
  match days_value with
  | none => .undefined
  | some s =>
    if s = "" then .undefined
    else
      let d := prepDays s
      match searchRange toSep d with
      | some (a, b) => .range a b
      | none =>
        match searchRange dashSep d with
        | some (a, b) => .range a b
        | none =>
          match searchRange enDashSep d with
          | some (a, b) => .range a b
          | none =>
            match searchRange tildeSep d with
            | some (a, b) => .range a b
            | none =>
              match searchSingle d with
              | some n => .single n
              | none => .undefined

/-- The value returned for each branch: (start + end) / 2 for a range (Python
true division, modelled exactly in ℚ), int(match.group(1)) for a single
number, None when nothing matched. -/
def DaysResult.value : DaysResult → Option ℚ
  | .undefined => none
  | .range a b => some (((a : ℚ) + b) / 2)
  | .single n => some (n : ℚ)

/-- ExportLongstandingConsolidator.clean_days_value, as the composition of the
branch selection with the per-branch value.  The source wraps the body in
try/except returning None; the model is total, so the except branch is
unreachable here. -/
def clean_days_value (days_value : Option String) : Option ℚ :=
  (clean_days_shape days_value).value

/-! ## File classifier: ExportLongstanding.get_file_type -/

/-- Python substring test (needle in hay) on char lists: some suffix of hay
starts with needle. -/
def listHasSub (needle : List Char) : List Char → Bool
  | [] => listStartsWith needle []
  | c :: cs => listStartsWith needle (c :: cs) || listHasSub needle cs

/-- Python str.lower() (ASCII fragment, like Char.toLower). -/
def pyLower (s : String) : String :=
  String.mk (s.toList.map Char.toLower)

def hasSub (needle hay : String) : Bool :=
  listHasSub needle.toList hay.toList

/-- The three recognized source layouts of get_file_type. -/
inductive FileType where
  | LS_Template
  | Export_Empties
  | Export_Longstandings
deriving DecidableEq, Repr

/-- The Sourcetype string stored for each layout (the Python file_type
string). -/
def fileTypeName : FileType → String
  | .LS_Template => "LS_Template"
  | .Export_Empties => "Export_Empties"
  | .Export_Longstandings => "Export_Longstandings"

/-- ExportLongstandingConsolidator.get_file_type: case-insensitive substring
matching against the fixed ordered keyword groups; first matching group wins;
no keyword means None (the file is skipped). -/
def get_file_type (filename : String) : Option FileType :=
  let filename_lower := pyLower filename
  if hasSub "ls template" filename_lower || hasSub "ls templet" filename_lower then
    some .LS_Template
  else if hasSub "export_empties_longstandings" filename_lower ||
      hasSub "empties longstanding" filename_lower then
    some .Export_Empties
  else if hasSub "export_longstandings" filename_lower ||
      hasSub "export longstanding" filename_lower then
    some .Export_Longstandings
  else
    none

/-! ## Week-specification parser: ExportLongstanding.parse_week_input -/

/-- Python str.split(sep) with a one-character separator: no collapsing of
empty pieces, and the empty string yields one empty piece. -/
def splitOn (sep : Char) : List Char → List (List Char)
  | [] => [[]]
  | c :: cs =>
    let r := splitOn sep cs
    if c = sep then [] :: r
    else
      match r with
      | [] => [[c]]
      | h :: t => (c :: h) :: t

def pyIntCore (l : List Char) : Option Nat :=
  if l.isEmpty then none
  else if l.all digitCh then some (natOfDigits l) else none

/-- Python int(str) on an already stripped token: an optional sign followed by
a nonempty digit run; anything else raises ValueError, modelled as none. -/
def pyInt : List Char → Option Int
  | '+' :: r => (pyIntCore r).map (fun n => (n : Int))
  | '-' :: r => (pyIntCore r).map (fun n => -(n : Int))
  | l => (pyIntCore l).map (fun n => (n : Int))

/-- Python list(range(a, b + 1)): the integers from a to b inclusive, empty
when b < a. -/
def intRange (a b : Int) : List Int :=
  if a ≤ b then (List.range (b + 1 - a).toNat).map (fun (i : Nat) => a + (i : Int)) else []

/-- ExportLongstandingConsolidator.parse_week_input: split on commas, strip
each part; a part containing a dash must split into exactly two pieces that
both parse as ints (otherwise ValueError is caught and the part is skipped
with a warning, modelled as contributing nothing) and contributes the
inclusive range; any other part contributes its int value when it parses;
finally sorted(list(set(...))).  The printed warnings are console I/O and are
not modelled. -/
def parse_week_input (week_input : String) : List Int :=
  let parts := (splitOn ',' week_input.toList).map pyStrip
  let week_numbers := parts.foldl
    (fun acc part =>
      if part.contains '-' then
        match splitOn '-' part with
        | [st, en] =>
          match pyInt (pyStrip st), pyInt (pyStrip en) with
          | some a, some b => acc ++ intRange a b
          | _, _ => acc
        | _ => acc
      else
        match pyInt part with
        | some n => acc ++ [n]
        | none => acc)
    []
  List.insertionSort (fun a b => a ≤ b) week_numbers.dedup

/-- The integers named by one comma-separated token of parse_week_input: a
valid "A-B" token names the inclusive range, a valid integer token names
itself, and an invalid token (ValueError, or a dash-token that does not split
into exactly two pieces) names nothing.  This is exactly the contribution of
one iteration of the parse_week_input loop. -/
def tokenWeeks (part : List Char) : List Int :=
  if part.contains '-' then
    match splitOn '-' part with
    | [st, en] =>
      match pyInt (pyStrip st), pyInt (pyStrip en) with
      | some a, some b => intRange a b
      | _, _ => []
    | _ => []
  else
    match pyInt part with
    | some n => [n]
    | none => []

/-! ## Master merge: ExportLongstanding.create_master_file

A master-table row carries the Week key (set by process_file from the integer
week number), the two further sort keys, and the remaining canonical fields as
an opaque payload.  pandas sort_values(['Week', 'ACTLOC_COUNTRY',
'SHIPMENT_NUMBER']) is modelled as a deterministic stable insertion sort under
the lexicographic order on those three keys; na_position='last' does not
arise because the model's key fields are total values. -/

structure MasterRow where
  week : Nat
  actloc_country : String
  shipment_number : String
  payload : List String
deriving DecidableEq, Repr

def rowKey (r : MasterRow) : Lex (Nat × Lex (String × String)) :=
  toLex (r.week, toLex (r.actloc_country, r.shipment_number))

def rowLe (a b : MasterRow) : Prop :=
  rowKey a ≤ rowKey b

instance : DecidableRel rowLe :=
  fun a b => inferInstanceAs (Decidable (rowKey a ≤ rowKey b))

instance : IsTotal MasterRow rowLe :=
  ⟨fun a b => le_total (rowKey a) (rowKey b)⟩

instance : IsTrans MasterRow rowLe :=
  ⟨fun _ _ _ h1 h2 => le_trans h1 h2⟩

def sortMaster (l : List MasterRow) : List MasterRow :=
  List.insertionSort rowLe l

/-- The period test of the merge: str(row.Week) among [str(w) for w in
processed_weeks]. -/
def weekInSet (processed_weeks : List Nat) (r : MasterRow) : Bool :=
  (processed_weeks.map toString).contains (toString r.week)

/-- ExportLongstandingConsolidator.create_master_file: with an empty df_list
it prints an error and returns None (no file written); otherwise the new
data is the concatenation of df_list, the existing master (when the file
exists) is purged of rows whose stringified Week is in the processed set, the
new data is appended, and the result is sorted and written.  The returned
value models the content written to the master file, none when nothing is
written. -/
def create_master_file (df_list : List (List MasterRow))
    (existing : Option (List MasterRow)) (processed_weeks : List Nat) :
    Option (List MasterRow) :=
  if df_list.isEmpty then none
  else
    let current_data := df_list.flatten
    let base :=
      match existing with
      | some existing_df => existing_df.filter (fun r => !(weekInSet processed_weeks r))
      | none => []
    some (sortMaster (base ++ current_data))

/-- The persisted master file after a create_master_file call: replaced by
the new content on success, untouched when the call returns None. -/
def masterAfterRun (existing : Option (List MasterRow))
    (df_list : List (List MasterRow)) (processed_weeks : List Nat) :
    Option (List MasterRow) :=
  match create_master_file df_list existing processed_weeks with
  | some t => some t
  | none => existing

/-- Concrete rows for witnesses and counterexamples. -/
def exRow5 : MasterRow := ⟨5, "IN", "S1", ["p5"]⟩

def exRow6 : MasterRow := ⟨6, "DK", "S2", ["p6"]⟩

/-! ## Import side: ImportLongstanding.main summary loop

One WeekData per entry of the weeks list: whether the folder exists, the two
file counts, and the row counts of the tables returned by the
extract_from_excel calls for that week, in call order (an empty table means
the extraction was skipped or failed). -/

structure WeekData where
  name : String
  found : Bool
  winFiles : Nat
  pyFiles : Nat
  tables : List Nat
deriving DecidableEq, Repr

structure SummaryRec where
  year : String
  month : String
  week : String
  totalFilesWindows : Nat
  filesPickedByPython : Nat
  shipmentsExtracted : Nat
deriving DecidableEq, Repr

/-- The records this week contributes to all_data: only nonempty tables are
appended. -/
def extractedCount (w : WeekData) : Nat :=
  (w.tables.filter (fun n => !(n == 0))).sum

/-- The per-week loop of ImportLongstanding.main: a missing week folder is
skipped with no summary row; otherwise the week's nonempty tables are
appended to the running all_data and one summary row is emitted whose
ShipmentsExtracted is sum(len(df) for df in all_data if not df.empty) —
computed over the CUMULATIVE all_data list, not this week's tables. -/
def goSummary (year month : String) (allData : List Nat) :
    List WeekData → List SummaryRec
  | [] => []
  | w :: ws =>
    if w.found then
      let ad := allData ++ w.tables.filter (fun n => !(n == 0))
      { year := year, month := month, week := w.name,
        totalFilesWindows := w.winFiles, filesPickedByPython := w.pyFiles,
        shipmentsExtracted := ad.sum } :: goSummary year month ad ws
    else goSummary year month allData ws

def runSummary (year month : String) (weeks : List WeekData) : List SummaryRec :=
  goSummary year month [] weeks

/-- Running totals: cumSums acc [n1, n2, ...] = [acc+n1, acc+n1+n2, ...]. -/
def cumSums (acc : Nat) : List Nat → List Nat
  | [] => []
  | n :: ns => (acc + n) :: cumSums (acc + n) ns

/-- Two found weeks, each extracting one single-row table. -/
def wdemo : List WeekData :=
  [⟨"WK 1", true, 1, 1, [1]⟩, ⟨"WK 2", true, 1, 1, [1]⟩]

/-! ## Record extractor: ExportLongstanding.process_file

A pandas DataFrame is modelled as a header list plus positional rows; cell
values are strings (the cleaned DAYS cell is rendered as an exact rational
string, whose concrete form no claim depends on). -/

structure PyFrame where
  headers : List String
  rows : List (List String)
deriving DecidableEq, Repr

/-- Every row has exactly one cell per header (always true of a DataFrame). -/
def Rect (f : PyFrame) : Prop :=
  ∀ r ∈ f.rows, r.length = f.headers.length

/-- Index of the first column with this name. -/
def idxOf (c : String) : List String → Option Nat
  | [] => none
  | h :: t => if h = c then some 0 else (idxOf c t).map (· + 1)

/-- Cell of a row under a named column; empty for a missing column or a short
row (which Rect rules out). -/
def colVal (f : PyFrame) (c : String) (row : List String) : String :=
  match idxOf c f.headers with
  | some i => row.getD i ""
  | none => ""

/-- df[name] = v with a constant value: overwrite the column in place when it
exists, else append it on the right. -/
def setColConst (f : PyFrame) (name v : String) : PyFrame :=
  match idxOf name f.headers with
  | some i => ⟨f.headers, f.rows.map (fun r => r.set i v)⟩
  | none => ⟨f.headers ++ [name], f.rows.map (fun r => r ++ [v])⟩

/-- df[name] = df[name].apply(g). -/
def mapCol (f : PyFrame) (name : String) (g : String → String) : PyFrame :=
  match idxOf name f.headers with
  | some i => ⟨f.headers, f.rows.map (fun r => r.set i (g (r.getD i "")))⟩
  | none => f

/-- mapped_df[dst] = mapped_df[src] (skipped when src is absent, per the
`if old_col in mapped_df.columns` guard). -/
def copyCol (f : PyFrame) (src dst : String) : PyFrame :=
  match idxOf src f.headers with
  | some i =>
    match idxOf dst f.headers with
    | some j => ⟨f.headers, f.rows.map (fun r => r.set j (r.getD i ""))⟩
    | none => ⟨f.headers ++ [dst], f.rows.map (fun r => r ++ [r.getD i ""])⟩
  | none => f

/-- The fixed output schema self.output_headers. -/
def output_headers : List String :=
  ["CURRENT_YEARWEEK", "ACTLOC_COUNTRY", "CONT_TYPE", "DAYS", "MOVE",
   "SHIPMENT_NUMBER", "Week", "Source", "Days since Gated Out",
   "ACTLOC Country", "Container Type", "Process", "Sourcetype", "Email Type"]

/-- The static raw-to-canonical column mappings of map_columns_to_output, in
Python dict insertion order. -/
def column_mappings : FileType → List (String × String)
  | .LS_Template =>
    [("Booking number", "SHIPMENT_NUMBER"), ("Days since Gated Out", "DAYS"),
     ("ACTLOC Country", "ACTLOC_COUNTRY"), ("Container Type", "CONT_TYPE"),
     ("Process", "MOVE")]
  | .Export_Empties =>
    [("Last move", "MOVE"), ("ACTLOC_COUNTRY", "ACTLOC_COUNTRY"),
     ("CONT_TYPE", "CONT_TYPE"), ("DAYS", "DAYS"),
     ("SHIPMENT_NUMBER", "SHIPMENT_NUMBER"), ("CURRENT_YEARWEEK", "CURRENT_YEARWEEK")]
  | .Export_Longstandings =>
    [("Last move", "MOVE"), ("ACTLOC_COUNTRY", "ACTLOC_COUNTRY"),
     ("CONT_TYPE", "CONT_TYPE"), ("DAYS", "DAYS"),
     ("SHIPMENT_NUMBER", "SHIPMENT_NUMBER"), ("CURRENT_YEARWEEK", "CURRENT_YEARWEEK")]

/-- Python str(c).strip() on a column label. -/
def trimStr (s : String) : String :=
  String.mk (pyStrip s.toList)

/-- map_columns_to_output: normalize (strip) the column labels, then apply
the layout's mappings one after the other. -/
def map_columns_to_output (f : PyFrame) (file_type : FileType) : PyFrame :=
  let f1 : PyFrame := ⟨f.headers.map trimStr, f.rows⟩
  (column_mappings file_type).foldl (fun acc p => copyCol acc p.1 p.2) f1

/-- The cleaned DAYS cell: df['DAYS'].apply(clean_days_value) on one cell.
An empty cell stands for a missing value; a defined rational result is
rendered as num/den (no claim depends on this rendering). -/
def daysCellStr (v : String) : String :=
  match clean_days_value (if v = "" then none else some v) with
  | none => ""
  | some q => toString q.num ++ "/" ++ toString q.den

/-- process_file after map_columns_to_output: clean DAYS when present. -/
def days_stage (f : PyFrame) (file_type : FileType) : PyFrame :=
  let df := map_columns_to_output f file_type
  if df.headers.contains "DAYS" then mapCol df "DAYS" daysCellStr else df

/-- ... then attach the metadata columns Week, Source, Sourcetype. -/
def meta_stage (f : PyFrame) (week_num : Nat) (source : String)
    (file_type : FileType) : PyFrame :=
  setColConst (setColConst (setColConst (days_stage f file_type)
    "Week" (toString week_num)) "Source" source) "Sourcetype" (fileTypeName file_type)

/-- One step of the backfill loop: `if col not in df.columns: df[col] = ""`. -/
def backfillStep (acc : PyFrame) (col : String) : PyFrame :=
  if acc.headers.contains col then acc else setColConst acc col ""

/-- ... then backfill every missing canonical column with the empty string. -/
def backfill_stage (f : PyFrame) (week_num : Nat) (source : String)
    (file_type : FileType) : PyFrame :=
  output_headers.foldl backfillStep (meta_stage f week_num source file_type)

/-- ExportLongstandingConsolidator.process_file, after the file has been read
into a raw frame: an empty frame (df.empty: either axis of length 0) yields
None; otherwise map columns, clean DAYS, attach metadata, backfill, and keep
exactly output_headers in order (df = df[self.output_headers]). -/
def process_file (f : PyFrame) (week_num : Nat) (source : String)
    (file_type : FileType) : Option PyFrame :=
  if f.rows.isEmpty || f.headers.isEmpty then none
  else
    let b := backfill_stage f week_num source file_type
    some ⟨output_headers, b.rows.map (fun r => output_headers.map (fun c => colVal b c r))⟩

end PBI

namespace PBI

/-! ## Helper lemmas: character classes -/

theorem space_not_digit {c : Char} (h : isSpaceCh c = true) : digitCh c = false := by
  simp only [isSpaceCh, Bool.or_eq_true, decide_eq_true_eq] at h
  rcases h with ((((h | h) | h) | h) | h) | h <;> subst h <;> decide

theorem digit_not_space {c : Char} (h : digitCh c = true) : isSpaceCh c = false := by
  simp only [isSpaceCh, Bool.or_eq_false_iff, decide_eq_false_iff_not]
  refine ⟨⟨⟨⟨⟨?_, ?_⟩, ?_⟩, ?_⟩, ?_⟩, ?_⟩ <;> rintro rfl <;> simp [digitCh] at h

theorem toNat_ofNat_valid (n : Nat) (h : n.isValidChar) : (Char.ofNat n).toNat = n := by
  unfold Char.ofNat
  rw [dif_pos h]
  rfl

theorem digitCh_toLower (c : Char) : digitCh c.toLower = digitCh c := by
  show digitCh (if c.toNat ≥ 65 ∧ c.toNat ≤ 90 then Char.ofNat (c.toNat + 32) else c)
    = digitCh c
  split
  · next h =>
    have hv : (c.toNat + 32).isValidChar := by
      left
      omega
    have ht : (Char.ofNat (c.toNat + 32)).toNat = c.toNat + 32 := toNat_ofNat_valid _ hv
    unfold digitCh
    rw [ht]
    have h1 : ((48 ≤ c.toNat + 32 && c.toNat + 32 ≤ 57) : Bool) = false := by
      simp only [Bool.and_eq_false_iff, decide_eq_false_iff_not]
      omega
    have h2 : ((48 ≤ c.toNat && c.toNat ≤ 57) : Bool) = false := by
      simp only [Bool.and_eq_false_iff, decide_eq_false_iff_not]
      omega
    rw [h1, h2]
  · rfl

theorem toLower_eq_self_of_digit {c : Char} (h : digitCh c = true) : c.toLower = c := by
  show (if c.toNat ≥ 65 ∧ c.toNat ≤ 90 then Char.ofNat (c.toNat + 32) else c) = c
  rw [if_neg]
  simp only [digitCh, Bool.and_eq_true, decide_eq_true_eq] at h
  omega

/-! ## Helper lemmas: takeWhile / dropWhile / suffixes -/

theorem takeWhile_append_all {α : Type} {p : α → Bool} :
    ∀ {xs : List α} (ys : List α), (∀ c ∈ xs, p c = true) →
      (xs ++ ys).takeWhile p = xs ++ ys.takeWhile p
  | [], ys, _ => rfl
  | x :: xs, ys, h => by
    have hx : p x = true := h x (by simp)
    simp only [List.cons_append, List.takeWhile_cons, hx, if_true]
    rw [takeWhile_append_all ys (fun c hc => h c (by simp [hc]))]

theorem dropWhile_append_all {α : Type} {p : α → Bool} :
    ∀ {xs : List α} (ys : List α), (∀ c ∈ xs, p c = true) →
      (xs ++ ys).dropWhile p = ys.dropWhile p
  | [], ys, _ => rfl
  | x :: xs, ys, h => by
    have hx : p x = true := h x (by simp)
    simp only [List.cons_append, List.dropWhile_cons, hx, if_true]
    exact dropWhile_append_all ys (fun c hc => h c (by simp [hc]))

theorem takeWhile_eq_nil_of_head {α : Type} {p : α → Bool} {l : List α}
    (h : ∀ c, l.head? = some c → p c = false) : l.takeWhile p = [] := by
  cases l with
  | nil => rfl
  | cons c cs =>
    have := h c rfl
    simp [List.takeWhile_cons, this]

theorem dropWhile_eq_self_of_head {α : Type} {p : α → Bool} {l : List α}
    (h : ∀ c, l.head? = some c → p c = false) : l.dropWhile p = l := by
  cases l with
  | nil => rfl
  | cons c cs =>
    have := h c rfl
    simp [List.dropWhile_cons, this]

theorem dropWhile_append_of_ne_nil {α : Type} {p : α → Bool} :
    ∀ {xs : List α} (ys : List α), xs.dropWhile p ≠ [] →
      (xs ++ ys).dropWhile p = xs.dropWhile p ++ ys
  | [], _, h => absurd rfl h
  | x :: xs, ys, h => by
    by_cases hx : p x = true
    · simp only [List.cons_append, List.dropWhile_cons, hx, if_true] at h ⊢
      exact dropWhile_append_of_ne_nil ys h
    · simp only [Bool.not_eq_true] at hx
      simp [List.dropWhile_cons, hx]

theorem suffix_append_split {α : Type} :
    ∀ {xs : List α} {t ys : List α}, t <:+ xs ++ ys →
      (∃ u, u <:+ xs ∧ t = u ++ ys) ∨ t <:+ ys
  | [], t, ys, h => Or.inr h
  | x :: xs, t, ys, h => by
    rw [List.cons_append, List.suffix_cons_iff] at h
    rcases h with rfl | h
    · exact Or.inl ⟨x :: xs, List.suffix_refl _, rfl⟩
    · rcases suffix_append_split h with ⟨u, hu, rfl⟩ | h
      · exact Or.inl ⟨u, hu.trans (List.suffix_cons x xs), rfl⟩
      · exact Or.inr h

theorem listStartsWith_append (sep : List Char) (rest : List Char) :
    listStartsWith sep (sep ++ rest) = true := by
  induction sep with
  | nil => rfl
  | cons c cs ih => simp [listStartsWith, ih]

theorem listStartsWith_head_ne {c : Char} {cs : List Char} {d : Char} {ds : List Char}
    (h : ¬ (c = d)) : listStartsWith (c :: cs) (d :: ds) = false := by
  simp [listStartsWith, h]

theorem listStartsWith_cons_nil (c : Char) (cs : List Char) :
    listStartsWith (c :: cs) [] = false := rfl

/-! ## Helper lemmas: matchRangeAt / searchRange / searchSingle -/

theorem matchRangeAt_none_of_head {sep : List Char} {l : List Char}
    (h : ∀ c, l.head? = some c → digitCh c = false) : matchRangeAt sep l = none := by
  unfold matchRangeAt
  rw [takeWhile_eq_nil_of_head h]
  rfl

theorem searchRange_eq_none_of_all {sep : List Char} :
    ∀ {l : List Char}, (∀ t, t <:+ l → matchRangeAt sep t = none) →
      searchRange sep l = none
  | [], _ => rfl
  | c :: cs, h => by
    have h1 : matchRangeAt sep (c :: cs) = none := h _ (List.suffix_refl _)
    have h2 : searchRange sep cs = none :=
      searchRange_eq_none_of_all (fun t ht => h t (ht.trans (List.suffix_cons c cs)))
    simp [searchRange, h1, h2]

theorem searchRange_cons_of_match {sep : List Char} {c : Char} {cs : List Char}
    {p : Nat × Nat} (h : matchRangeAt sep (c :: cs) = some p) :
    searchRange sep (c :: cs) = some p := by
  simp [searchRange, h]

theorem searchRange_none_of_noDigit {sep : List Char} {l : List Char}
    (h : ∀ c ∈ l, digitCh c = false) : searchRange sep l = none := by
  refine searchRange_eq_none_of_all (fun t ht => matchRangeAt_none_of_head ?_)
  intro c hc
  have : c ∈ t := by
    cases t with
    | nil => simp at hc
    | cons a as =>
      simp only [List.head?_cons, Option.some.injEq] at hc
      simp [hc]
  exact h c (ht.sublist.subset this)

theorem searchSingle_none_of_noDigit :
    ∀ {l : List Char}, (∀ c ∈ l, digitCh c = false) → searchSingle l = none
  | [], _ => rfl
  | c :: cs, h => by
    have hc : digitCh c = false := h c (by simp)
    simp only [searchSingle, hc, Bool.false_eq_true, if_false]
    exact searchSingle_none_of_noDigit (fun d hd => h d (by simp [hd]))

theorem searchSingle_construct :
    ∀ {pre : List Char} {d post : List Char}, (∀ c ∈ pre, digitCh c = false) →
      d ≠ [] → (∀ c ∈ d, digitCh c = true) →
      (∀ c, post.head? = some c → digitCh c = false) →
      searchSingle (pre ++ d ++ post) = some (natOfDigits d)
  | [], d, post, _, hd, hda, hpost => by
    cases d with
    | nil => exact absurd rfl hd
    | cons e es =>
      have he : digitCh e = true := hda e (by simp)
      have htw : (e :: es ++ post).takeWhile digitCh = e :: es := by
        have := takeWhile_append_all post hda
        rw [this, takeWhile_eq_nil_of_head hpost, List.append_nil]
      rw [List.cons_append] at htw
      simp only [List.nil_append, List.cons_append, searchSingle, he, if_true,
        List.append_eq, htw]
  | c :: pre, d, post, hpre, hd, hda, hpost => by
    have hc : digitCh c = false := hpre c (by simp)
    simp only [List.cons_append, searchSingle, hc, Bool.false_eq_true, if_false]
    exact searchSingle_construct (fun x hx => hpre x (by simp [hx])) hd hda hpost

theorem isEmpty_false_of_ne_nil {α : Type} {l : List α} (h : l ≠ []) :
    l.isEmpty = false := by
  cases l with
  | nil => exact absurd rfl h
  | cons a as => rfl

theorem matchRangeAt_construct (sc : Char) (srest sp1 sp2 : List Char)
    {d1 d2 post : List Char}
    (hscd : digitCh sc = false) (hscs : isSpaceCh sc = false)
    (hd1 : d1 ≠ []) (hd1a : ∀ c ∈ d1, digitCh c = true)
    (hsp1 : ∀ c ∈ sp1, isSpaceCh c = true) (hsp2 : ∀ c ∈ sp2, isSpaceCh c = true)
    (hd2 : d2 ≠ []) (hd2a : ∀ c ∈ d2, digitCh c = true)
    (hpost : ∀ c, post.head? = some c → digitCh c = false) :
    matchRangeAt (sc :: srest) (d1 ++ (sp1 ++ ((sc :: srest) ++ (sp2 ++ (d2 ++ post)))))
      = some (natOfDigits d1, natOfDigits d2) := by
  have hheadR1 : ∀ c, (sp1 ++ ((sc :: srest) ++ (sp2 ++ (d2 ++ post)))).head? = some c →
      digitCh c = false := by
    intro c hc
    cases sp1 with
    | nil =>
      simp only [List.nil_append, List.cons_append, List.head?_cons,
        Option.some.injEq] at hc
      rw [← hc]
      exact hscd
    | cons s ss =>
      simp only [List.cons_append, List.head?_cons, Option.some.injEq] at hc
      rw [← hc]
      exact space_not_digit (hsp1 s (by simp))
  have hheadD2 : ∀ c, (d2 ++ post).head? = some c → isSpaceCh c = false := by
    intro c hc
    cases d2 with
    | nil => exact absurd rfl hd2
    | cons e es =>
      simp only [List.cons_append, List.head?_cons, Option.some.injEq] at hc
      rw [← hc]
      exact digit_not_space (hd2a e (by simp))
  have htake : (d1 ++ (sp1 ++ ((sc :: srest) ++ (sp2 ++ (d2 ++ post))))).takeWhile digitCh
      = d1 := by
    rw [takeWhile_append_all _ hd1a, takeWhile_eq_nil_of_head hheadR1, List.append_nil]
  have hdrop : (d1 ++ (sp1 ++ ((sc :: srest) ++ (sp2 ++ (d2 ++ post))))).dropWhile digitCh
      = sp1 ++ ((sc :: srest) ++ (sp2 ++ (d2 ++ post))) := by
    rw [dropWhile_append_all _ hd1a, dropWhile_eq_self_of_head hheadR1]
  have hspaces1 : (sp1 ++ ((sc :: srest) ++ (sp2 ++ (d2 ++ post)))).dropWhile isSpaceCh
      = (sc :: srest) ++ (sp2 ++ (d2 ++ post)) := by
    rw [dropWhile_append_all _ hsp1]
    have : ((sc :: srest) ++ (sp2 ++ (d2 ++ post))).head? = some sc := by simp
    refine dropWhile_eq_self_of_head ?_
    intro c hc
    rw [this, Option.some.injEq] at hc
    rw [← hc]
    exact hscs
  have hspaces2 : (sp2 ++ (d2 ++ post)).dropWhile isSpaceCh = d2 ++ post := by
    rw [dropWhile_append_all _ hsp2, dropWhile_eq_self_of_head hheadD2]
  have htake2 : (d2 ++ post).takeWhile digitCh = d2 := by
    rw [takeWhile_append_all _ hd2a, takeWhile_eq_nil_of_head hpost, List.append_nil]
  simp only [matchRangeAt, htake, hdrop, hspaces1, isEmpty_false_of_ne_nil hd1,
    Bool.false_eq_true, if_false, listStartsWith_append, if_true, List.drop_left,
    hspaces2, htake2, isEmpty_false_of_ne_nil hd2]

theorem mem_of_headOpt {α : Type} {l : List α} {c : α} (h : l.head? = some c) :
    c ∈ l := by
  cases l with
  | nil => simp at h
  | cons a as =>
    simp only [List.head?_cons, Option.some.injEq] at h
    simp [h]

theorem matchRangeAt_digits_fail {c' : Char} {s' : List Char} {v rest : List Char}
    (hv : v ≠ []) (hva : ∀ c ∈ v, digitCh c = true)
    (hrest : ∀ c, rest.head? = some c → digitCh c = false)
    (hfail : listStartsWith (c' :: s') (rest.dropWhile isSpaceCh) = false) :
    matchRangeAt (c' :: s') (v ++ rest) = none := by
  have htake : (v ++ rest).takeWhile digitCh = v := by
    rw [takeWhile_append_all _ hva, takeWhile_eq_nil_of_head hrest, List.append_nil]
  have hdrop : (v ++ rest).dropWhile digitCh = rest := by
    rw [dropWhile_append_all _ hva, dropWhile_eq_self_of_head hrest]
  simp only [matchRangeAt, htake, hdrop, isEmpty_false_of_ne_nil hv,
    Bool.false_eq_true, if_false, hfail]

theorem searchRange_none_construct (c' : Char) (s' : List Char)
    {d1 : List Char} (M : List Char) {d2 post : List Char} (tc : Char) (tr : List Char)
    (hd1 : ∀ c ∈ d1, digitCh c = true) (hd2 : ∀ c ∈ d2, digitCh c = true)
    (hM : ∀ c ∈ M, digitCh c = false)
    (hMdrop : M.dropWhile isSpaceCh = tc :: tr) (htc : ¬ (c' = tc))
    (hpostd : ∀ c ∈ post, digitCh c = false)
    (hpdrop : post.dropWhile isSpaceCh = [] ∨
      ∃ pc pr, post.dropWhile isSpaceCh = pc :: pr ∧ ¬ (c' = pc)) :
    searchRange (c' :: s') (d1 ++ (M ++ (d2 ++ post))) = none := by
  have hMne : M ≠ [] := by
    intro h
    rw [h] at hMdrop
    exact absurd hMdrop (by simp)
  have hposthead : ∀ c, post.head? = some c → digitCh c = false :=
    fun c hc => hpostd c (mem_of_headOpt hc)
  have hMhead : ∀ c, (M ++ (d2 ++ post)).head? = some c → digitCh c = false := by
    intro c hc
    cases M with
    | nil => exact absurd rfl hMne
    | cons m mt =>
      simp only [List.cons_append, List.head?_cons, Option.some.injEq] at hc
      rw [← hc]
      exact hM m (by simp)
  have hpostfail : listStartsWith (c' :: s') (post.dropWhile isSpaceCh) = false := by
    rcases hpdrop with h | ⟨pc, pr, h, hne⟩
    · rw [h]
      exact listStartsWith_cons_nil c' s'
    · rw [h]
      exact listStartsWith_head_ne hne
  have caseC : ∀ v, v <:+ d2 → matchRangeAt (c' :: s') (v ++ post) = none := by
    intro v hv
    have hva : ∀ c ∈ v, digitCh c = true := fun c hc => hd2 c (hv.sublist.subset hc)
    cases v with
    | nil =>
      simp only [List.nil_append]
      exact matchRangeAt_none_of_head hposthead
    | cons b bs =>
      exact matchRangeAt_digits_fail (by simp) hva hposthead hpostfail
  have caseA : ∀ u, u <:+ d1 →
      matchRangeAt (c' :: s') (u ++ (M ++ (d2 ++ post))) = none := by
    intro u hu
    have hua : ∀ c ∈ u, digitCh c = true := fun c hc => hd1 c (hu.sublist.subset hc)
    cases u with
    | nil =>
      simp only [List.nil_append]
      exact matchRangeAt_none_of_head hMhead
    | cons a as =>
      refine matchRangeAt_digits_fail (by simp) hua hMhead ?_
      rw [dropWhile_append_of_ne_nil _ (by rw [hMdrop]; simp), hMdrop,
        List.cons_append]
      exact listStartsWith_head_ne htc
  have caseM : ∀ w, w <:+ M →
      matchRangeAt (c' :: s') (w ++ (d2 ++ post)) = none := by
    intro w hw
    cases w with
    | nil =>
      simp only [List.nil_append]
      exact caseC d2 (List.suffix_refl _)
    | cons m mt =>
      refine matchRangeAt_none_of_head ?_
      intro c hc
      simp only [List.cons_append, List.head?_cons, Option.some.injEq] at hc
      rw [← hc]
      exact hM m (hw.sublist.subset (by simp))
  refine searchRange_eq_none_of_all (fun t ht => ?_)
  rcases suffix_append_split ht with ⟨u, hu, rfl⟩ | ht2
  · exact caseA u hu
  · rcases suffix_append_split ht2 with ⟨w, hw, rfl⟩ | ht3
    · exact caseM w hw
    · rcases suffix_append_split ht3 with ⟨v, hv, rfl⟩ | ht4
      · exact caseC v hv
      · exact matchRangeAt_none_of_head
          (fun c hc => hpostd c (ht4.sublist.subset (mem_of_headOpt hc)))

/-! ## Helper lemmas: prepDays -/

theorem mem_of_getLastOpt {α : Type} {l : List α} {c : α} (h : l.getLast? = some c) :
    c ∈ l := by
  have : c ∈ l.reverse := by
    rw [← List.head?_reverse] at h
    exact List.mem_of_mem_head? (by rw [h]; rfl)
  simpa using this

theorem pyStrip_subset {l : List Char} {c : Char} (hc : c ∈ pyStrip l) : c ∈ l := by
  unfold pyStrip at hc
  rw [List.mem_reverse] at hc
  have h1 := (List.dropWhile_sublist (l := (l.dropWhile isSpaceCh).reverse)
    isSpaceCh).subset hc
  rw [List.mem_reverse] at h1
  exact (List.dropWhile_sublist isSpaceCh).subset h1

theorem mk_ne_empty {l : List Char} (h : l ≠ []) : String.mk l ≠ "" := by
  intro he
  exact h (by simpa using congrArg String.data he)

theorem prepDays_eq_self {l : List Char}
    (hhead : ∀ c, l.head? = some c → isSpaceCh c = false)
    (hlast : ∀ c, l.getLast? = some c → isSpaceCh c = false)
    (hlower : ∀ c ∈ l, c.toLower = c) :
    prepDays (String.mk l) = l := by
  show ((pyStrip ((String.mk l).toList)).map Char.toLower) = l
  have htl : (String.mk l).toList = l := rfl
  rw [htl]
  have hstrip : pyStrip l = l := by
    unfold pyStrip
    rw [dropWhile_eq_self_of_head hhead, dropWhile_eq_self_of_head, List.reverse_reverse]
    intro c hc
    rw [List.head?_reverse] at hc
    exact hlast c hc
  rw [hstrip, List.map_congr_left hlower]
  exact List.map_id' l

theorem prepDays_noDigit {s : String} (hs : ∀ c ∈ s.toList, digitCh c = false) :
    ∀ c ∈ prepDays s, digitCh c = false := by
  intro c hc
  unfold prepDays at hc
  rcases List.mem_map.mp hc with ⟨c0, hc0, rfl⟩
  rw [digitCh_toLower]
  exact hs c0 (pyStrip_subset hc0)

/-! ## Claim theorems for the numeric normalizer -/

/-- C6: normalizer totality and failure semantics.  For a missing value
(pandas NaN), the empty string, and any string containing no digit, the
normalizer returns the undefined result (None).  The model is a total Lean
function, so no exception can be raised on any input; the source additionally
wraps the body in try/except returning None, and warning logging happens in
the caller process_file, not here. -/
theorem claim_C6_normalizer_failure_semantics :
    clean_days_value none = none ∧ clean_days_value (some "") = none ∧
      ∀ s : String, (∀ c ∈ s.toList, digitCh c = false) →
        clean_days_value (some s) = none := by
  refine ⟨rfl, rfl, fun s hs => ?_⟩
  by_cases hne : s = ""
  · subst hne
    rfl
  · have hprepd : ∀ c ∈ prepDays s, digitCh c = false := prepDays_noDigit hs
    simp only [clean_days_value, clean_days_shape]
    rw [if_neg hne, searchRange_none_of_noDigit hprepd,
      searchRange_none_of_noDigit hprepd, searchRange_none_of_noDigit hprepd,
      searchRange_none_of_noDigit hprepd, searchSingle_none_of_noDigit hprepd]
    rfl

theorem claim_C6_witness :
    (∀ c ∈ ("no digits here!").toList, digitCh c = false) ∧
      clean_days_value (some "no digits here!") = none :=
  ⟨by decide, claim_C6_normalizer_failure_semantics.2.2 "no digits here!" (by decide)⟩

/-- C10: the normalizer never returns a negative value: every defined result
is non-negative, because the digit pattern matches only unsigned digit runs;
in particular a leading minus sign is ignored, so "-5 days" normalizes to 5,
not -5. -/
theorem claim_C10_normalizer_nonneg :
    (∀ (v : Option String) (q : ℚ), clean_days_value v = some q → 0 ≤ q) ∧
      clean_days_value (some "-5 days") = some 5 := by
  constructor
  · intro v q h
    unfold clean_days_value at h
    cases hsh : clean_days_shape v with
    | undefined =>
      rw [hsh] at h
      exact absurd h (by simp [DaysResult.value])
    | range a b =>
      rw [hsh] at h
      simp only [DaysResult.value, Option.some.injEq] at h
      rw [← h]
      positivity
    | single n =>
      rw [hsh] at h
      simp only [DaysResult.value, Option.some.injEq] at h
      rw [← h]
      positivity
  · have h : clean_days_shape (some "-5 days") = .single 5 := by decide
    rw [clean_days_value, h]
    norm_num [DaysResult.value]

theorem claim_C10_witness :
    clean_days_value (some "3") = some 3 ∧ (0 : ℚ) ≤ 3 := by
  have h3 : clean_days_value (some "3") = some 3 := by
    have h : clean_days_shape (some "3") = .single 3 := by decide
    rw [clean_days_value, h]
    norm_num [DaysResult.value]
  exact ⟨h3, claim_C10_normalizer_nonneg.1 (some "3") 3 h3⟩

/-- C5: single-number rule.  First conjunct: when the (lowered, stripped)
input matches none of the four range patterns but the single pattern finds an
integer, the normalizer returns exactly that integer.  Second conjunct: the
single pattern returns the FIRST integer in the string — for any string laid
out as digit-free text, then a digit run, then anything not starting with a
digit, it returns the value of that first digit run. -/
theorem claim_C5_single_number_rule :
    (∀ (s : String) (n : Nat), s ≠ "" →
        searchRange toSep (prepDays s) = none →
        searchRange dashSep (prepDays s) = none →
        searchRange enDashSep (prepDays s) = none →
        searchRange tildeSep (prepDays s) = none →
        searchSingle (prepDays s) = some n →
        clean_days_value (some s) = some (n : ℚ)) ∧
      ∀ (pre d post : List Char), (∀ c ∈ pre, digitCh c = false) → d ≠ [] →
        (∀ c ∈ d, digitCh c = true) →
        (∀ c, post.head? = some c → digitCh c = false) →
        searchSingle (pre ++ d ++ post) = some (natOfDigits d) := by
  constructor
  · intro s n hne h1 h2 h3 h4 h5
    simp only [clean_days_value, clean_days_shape]
    rw [if_neg hne, h1, h2, h3, h4, h5]
    rfl
  · intro pre d post h1 h2 h3 h4
    exact searchSingle_construct h1 h2 h3 h4

theorem postOk_digit {post : List Char}
    (hp : post = [] ∨ post = ' ' :: ['d', 'a', 'y', 's']) :
    ∀ c ∈ post, digitCh c = false := by
  rcases hp with rfl | rfl
  · simp
  · decide

theorem postOk_head {post : List Char}
    (hp : post = [] ∨ post = ' ' :: ['d', 'a', 'y', 's']) :
    ∀ c, post.head? = some c → digitCh c = false :=
  fun c hc => postOk_digit hp c (mem_of_headOpt hc)

theorem postOk_lower {post : List Char}
    (hp : post = [] ∨ post = ' ' :: ['d', 'a', 'y', 's']) :
    ∀ c ∈ post, c.toLower = c := by
  rcases hp with rfl | rfl
  · simp
  · decide

theorem postOk_drop {post : List Char}
    (hp : post = [] ∨ post = ' ' :: ['d', 'a', 'y', 's']) :
    post.dropWhile isSpaceCh = [] ∨ post.dropWhile isSpaceCh = 'd' :: ['a', 'y', 's'] := by
  rcases hp with rfl | rfl
  · exact Or.inl rfl
  · exact Or.inr (by decide)

theorem postOk_last {post : List Char}
    (hp : post = [] ∨ post = ' ' :: ['d', 'a', 'y', 's']) :
    ∀ c, post.getLast? = some c → isSpaceCh c = false := by
  rcases hp with rfl | rfl
  · intro c hc
    simp at hc
  · intro c hc
    have hs : (' ' :: ['d', 'a', 'y', 's']).getLast? = some 's' := by decide
    rw [hs, Option.some.injEq] at hc
    rw [← hc]
    decide

theorem getLastOpt_append_right {α : Type} {l₁ l₂ : List α} (h : l₂ ≠ []) :
    (l₁ ++ l₂).getLast? = l₂.getLast? := by
  rw [List.getLast?_append, List.getLast?_eq_getLast_of_ne_nil h]
  rfl

theorem prep_frame (mid : List Char) {d1 d2 post : List Char}
    (hmid : mid ≠ []) (hmidlower : ∀ c ∈ mid, c.toLower = c)
    (hd1 : d1 ≠ []) (hd1a : ∀ c ∈ d1, digitCh c = true)
    (hd2 : d2 ≠ []) (hd2a : ∀ c ∈ d2, digitCh c = true)
    (hp : post = [] ∨ post = ' ' :: ['d', 'a', 'y', 's']) :
    prepDays (String.mk (d1 ++ (mid ++ (d2 ++ post)))) = d1 ++ (mid ++ (d2 ++ post)) := by
  refine prepDays_eq_self ?_ ?_ ?_
  · intro c hc
    cases d1 with
    | nil => exact absurd rfl hd1
    | cons a as =>
      simp only [List.cons_append, List.head?_cons, Option.some.injEq] at hc
      rw [← hc]
      exact digit_not_space (hd1a a (by simp))
  · intro c hc
    have hne2 : mid ++ (d2 ++ post) ≠ [] := by
      cases mid with
      | nil => exact absurd rfl hmid
      | cons m mt => simp
    rw [getLastOpt_append_right hne2] at hc
    have hne3 : d2 ++ post ≠ [] := by
      cases d2 with
      | nil => exact absurd rfl hd2
      | cons e es => simp
    rw [getLastOpt_append_right hne3] at hc
    rcases hp with rfl | rfl
    · rw [List.append_nil] at hc
      exact digit_not_space (hd2a c (mem_of_getLastOpt hc))
    · rw [getLastOpt_append_right (by simp)] at hc
      exact postOk_last (Or.inr rfl) c hc
  · intro c hc
    rcases List.mem_append.mp hc with h1 | h23
    · exact toLower_eq_self_of_digit (hd1a c h1)
    · rcases List.mem_append.mp h23 with h2 | h34
      · exact hmidlower c h2
      · rcases List.mem_append.mp h34 with h3 | h4
        · exact toLower_eq_self_of_digit (hd2a c h3)
        · exact postOk_lower hp c h4

theorem postOk_pdrop {post : List Char}
    (hp : post = [] ∨ post = ' ' :: ['d', 'a', 'y', 's']) (c' : Char)
    (hcd : ¬(c' = 'd')) :
    post.dropWhile isSpaceCh = [] ∨
      ∃ pc pr, post.dropWhile isSpaceCh = pc :: pr ∧ ¬(c' = pc) := by
  rcases postOk_drop hp with h | h
  · exact Or.inl h
  · exact Or.inr ⟨'d', ['a', 'y', 's'], h, hcd⟩

theorem shape_mid_to {d1 d2 post : List Char}
    (hd1 : d1 ≠ []) (hd1a : ∀ c ∈ d1, digitCh c = true)
    (hd2 : d2 ≠ []) (hd2a : ∀ c ∈ d2, digitCh c = true)
    (hp : post = [] ∨ post = ' ' :: ['d', 'a', 'y', 's']) :
    clean_days_shape (some (String.mk (d1 ++ (" to ".toList ++ (d2 ++ post)))))
      = .range (natOfDigits d1) (natOfDigits d2) := by
  have hLne : d1 ++ (" to ".toList ++ (d2 ++ post)) ≠ [] := by
    cases d1 with
    | nil => exact absurd rfl hd1
    | cons a as => simp
  have hne : String.mk (d1 ++ (" to ".toList ++ (d2 ++ post))) ≠ "" := mk_ne_empty hLne
  have hprep := prep_frame (" to ".toList) (by decide) (by decide)
    hd1 hd1a hd2 hd2a hp
  have hmatch : matchRangeAt toSep (d1 ++ (" to ".toList ++ (d2 ++ post)))
      = some (natOfDigits d1, natOfDigits d2) :=
    matchRangeAt_construct 't' ['o'] [' '] [' ']
      (by decide) (by decide) hd1 hd1a (by decide) (by decide) hd2 hd2a (postOk_head hp)
  have hsearch : searchRange toSep (d1 ++ (" to ".toList ++ (d2 ++ post)))
      = some (natOfDigits d1, natOfDigits d2) := by
    cases d1 with
    | nil => exact absurd rfl hd1
    | cons a as => exact searchRange_cons_of_match hmatch
  simp only [clean_days_shape]
  rw [if_neg hne, hprep, hsearch]

theorem shape_mid_dash {d1 d2 post : List Char}
    (hd1 : d1 ≠ []) (hd1a : ∀ c ∈ d1, digitCh c = true)
    (hd2 : d2 ≠ []) (hd2a : ∀ c ∈ d2, digitCh c = true)
    (hp : post = [] ∨ post = ' ' :: ['d', 'a', 'y', 's']) :
    clean_days_shape (some (String.mk (d1 ++ ("-".toList ++ (d2 ++ post)))))
      = .range (natOfDigits d1) (natOfDigits d2) := by
  have hLne : d1 ++ ("-".toList ++ (d2 ++ post)) ≠ [] := by
    cases d1 with
    | nil => exact absurd rfl hd1
    | cons a as => simp
  have hne : String.mk (d1 ++ ("-".toList ++ (d2 ++ post))) ≠ "" := mk_ne_empty hLne
  have hprep := prep_frame ("-".toList) (by decide) (by decide)
    hd1 hd1a hd2 hd2a hp
  have hn1 : searchRange toSep (d1 ++ ("-".toList ++ (d2 ++ post))) = none :=
    searchRange_none_construct 't' ['o'] ['-']
      '-' [] hd1a hd2a (by decide) (by decide) (by decide)
      (postOk_digit hp) (postOk_pdrop hp 't' (by decide))
  have hmatch : matchRangeAt dashSep (d1 ++ ("-".toList ++ (d2 ++ post)))
      = some (natOfDigits d1, natOfDigits d2) :=
    matchRangeAt_construct '-' [] [] []
      (by decide) (by decide) hd1 hd1a (by simp) (by simp) hd2 hd2a (postOk_head hp)
  have hsearch : searchRange dashSep (d1 ++ ("-".toList ++ (d2 ++ post)))
      = some (natOfDigits d1, natOfDigits d2) := by
    cases d1 with
    | nil => exact absurd rfl hd1
    | cons a as => exact searchRange_cons_of_match hmatch
  simp only [clean_days_shape]
  rw [if_neg hne, hprep, hn1, hsearch]

theorem shape_mid_endash {d1 d2 post : List Char}
    (hd1 : d1 ≠ []) (hd1a : ∀ c ∈ d1, digitCh c = true)
    (hd2 : d2 ≠ []) (hd2a : ∀ c ∈ d2, digitCh c = true)
    (hp : post = [] ∨ post = ' ' :: ['d', 'a', 'y', 's']) :
    clean_days_shape (some (String.mk (d1 ++ ("–".toList ++ (d2 ++ post)))))
      = .range (natOfDigits d1) (natOfDigits d2) := by
  have hLne : d1 ++ ("–".toList ++ (d2 ++ post)) ≠ [] := by
    cases d1 with
    | nil => exact absurd rfl hd1
    | cons a as => simp
  have hne : String.mk (d1 ++ ("–".toList ++ (d2 ++ post))) ≠ "" := mk_ne_empty hLne
  have hprep := prep_frame ("–".toList) (by decide) (by decide)
    hd1 hd1a hd2 hd2a hp
  have hn1 : searchRange toSep (d1 ++ ("–".toList ++ (d2 ++ post))) = none :=
    searchRange_none_construct 't' ['o'] ['–']
      '–' [] hd1a hd2a (by decide) (by decide) (by decide)
      (postOk_digit hp) (postOk_pdrop hp 't' (by decide))
  have hn2 : searchRange dashSep (d1 ++ ("–".toList ++ (d2 ++ post))) = none :=
    searchRange_none_construct '-' [] ['–']
      '–' [] hd1a hd2a (by decide) (by decide) (by decide)
      (postOk_digit hp) (postOk_pdrop hp '-' (by decide))
  have hmatch : matchRangeAt enDashSep (d1 ++ ("–".toList ++ (d2 ++ post)))
      = some (natOfDigits d1, natOfDigits d2) :=
    matchRangeAt_construct '–' [] [] []
      (by decide) (by decide) hd1 hd1a (by simp) (by simp) hd2 hd2a (postOk_head hp)
  have hsearch : searchRange enDashSep (d1 ++ ("–".toList ++ (d2 ++ post)))
      = some (natOfDigits d1, natOfDigits d2) := by
    cases d1 with
    | nil => exact absurd rfl hd1
    | cons a as => exact searchRange_cons_of_match hmatch
  simp only [clean_days_shape]
  rw [if_neg hne, hprep, hn1, hn2, hsearch]

theorem shape_mid_tilde {d1 d2 post : List Char}
    (hd1 : d1 ≠ []) (hd1a : ∀ c ∈ d1, digitCh c = true)
    (hd2 : d2 ≠ []) (hd2a : ∀ c ∈ d2, digitCh c = true)
    (hp : post = [] ∨ post = ' ' :: ['d', 'a', 'y', 's']) :
    clean_days_shape (some (String.mk (d1 ++ ("~".toList ++ (d2 ++ post)))))
      = .range (natOfDigits d1) (natOfDigits d2) := by
  have hLne : d1 ++ ("~".toList ++ (d2 ++ post)) ≠ [] := by
    cases d1 with
    | nil => exact absurd rfl hd1
    | cons a as => simp
  have hne : String.mk (d1 ++ ("~".toList ++ (d2 ++ post))) ≠ "" := mk_ne_empty hLne
  have hprep := prep_frame ("~".toList) (by decide) (by decide)
    hd1 hd1a hd2 hd2a hp
  have hn1 : searchRange toSep (d1 ++ ("~".toList ++ (d2 ++ post))) = none :=
    searchRange_none_construct 't' ['o'] ['~']
      '~' [] hd1a hd2a (by decide) (by decide) (by decide)
      (postOk_digit hp) (postOk_pdrop hp 't' (by decide))
  have hn2 : searchRange dashSep (d1 ++ ("~".toList ++ (d2 ++ post))) = none :=
    searchRange_none_construct '-' [] ['~']
      '~' [] hd1a hd2a (by decide) (by decide) (by decide)
      (postOk_digit hp) (postOk_pdrop hp '-' (by decide))
  have hn3 : searchRange enDashSep (d1 ++ ("~".toList ++ (d2 ++ post))) = none :=
    searchRange_none_construct '–' [] ['~']
      '~' [] hd1a hd2a (by decide) (by decide) (by decide)
      (postOk_digit hp) (postOk_pdrop hp '–' (by decide))
  have hmatch : matchRangeAt tildeSep (d1 ++ ("~".toList ++ (d2 ++ post)))
      = some (natOfDigits d1, natOfDigits d2) :=
    matchRangeAt_construct '~' [] [] []
      (by decide) (by decide) hd1 hd1a (by simp) (by simp) hd2 hd2a (postOk_head hp)
  have hsearch : searchRange tildeSep (d1 ++ ("~".toList ++ (d2 ++ post)))
      = some (natOfDigits d1, natOfDigits d2) := by
    cases d1 with
    | nil => exact absurd rfl hd1
    | cons a as => exact searchRange_cons_of_match hmatch
  simp only [clean_days_shape]
  rw [if_neg hne, hprep, hn1, hn2, hn3, hsearch]

/-- C3: range-pattern normalization.  For every pair of integers a ≤ b, given
as their digit strings, an input of the form "a to b", "a-b", "a–b" (en-dash)
or "a~b", optionally followed by the surrounding text " days", normalizes to
exactly (a+b)/2 as an exact rational mean (half-integer results allowed).
The trailing conjuncts pin the fixed priority order: on "1 to 2-3" the
" to " pattern wins over "-" (giving 3/2, not 5/2), on "1–2-3" the "-" pattern
wins over the en-dash (giving 5/2, not 3/2), and on "1~2–3" the en-dash
pattern wins over "~" (giving 5/2, not 3/2). -/
theorem claim_C3_range_patterns :
    (∀ d1 d2 post : List Char, d1 ≠ [] → (∀ c ∈ d1, digitCh c = true) →
      d2 ≠ [] → (∀ c ∈ d2, digitCh c = true) →
      (post = [] ∨ post = ' ' :: ['d', 'a', 'y', 's']) →
      natOfDigits d1 ≤ natOfDigits d2 →
      clean_days_value (some (String.mk (d1 ++ (" to ".toList ++ (d2 ++ post)))))
        = some ((natOfDigits d1 + natOfDigits d2 : ℚ) / 2)) ∧
    (∀ d1 d2 post : List Char, d1 ≠ [] → (∀ c ∈ d1, digitCh c = true) →
      d2 ≠ [] → (∀ c ∈ d2, digitCh c = true) →
      (post = [] ∨ post = ' ' :: ['d', 'a', 'y', 's']) →
      natOfDigits d1 ≤ natOfDigits d2 →
      clean_days_value (some (String.mk (d1 ++ ("-".toList ++ (d2 ++ post)))))
        = some ((natOfDigits d1 + natOfDigits d2 : ℚ) / 2)) ∧
    (∀ d1 d2 post : List Char, d1 ≠ [] → (∀ c ∈ d1, digitCh c = true) →
      d2 ≠ [] → (∀ c ∈ d2, digitCh c = true) →
      (post = [] ∨ post = ' ' :: ['d', 'a', 'y', 's']) →
      natOfDigits d1 ≤ natOfDigits d2 →
      clean_days_value (some (String.mk (d1 ++ ("–".toList ++ (d2 ++ post)))))
        = some ((natOfDigits d1 + natOfDigits d2 : ℚ) / 2)) ∧
    (∀ d1 d2 post : List Char, d1 ≠ [] → (∀ c ∈ d1, digitCh c = true) →
      d2 ≠ [] → (∀ c ∈ d2, digitCh c = true) →
      (post = [] ∨ post = ' ' :: ['d', 'a', 'y', 's']) →
      natOfDigits d1 ≤ natOfDigits d2 →
      clean_days_value (some (String.mk (d1 ++ ("~".toList ++ (d2 ++ post)))))
        = some ((natOfDigits d1 + natOfDigits d2 : ℚ) / 2)) ∧
    clean_days_value (some "1 to 2-3") = some ((1 + 2 : ℚ) / 2) ∧
    clean_days_value (some "1–2-3") = some ((2 + 3 : ℚ) / 2) ∧
    clean_days_value (some "1~2–3") = some ((2 + 3 : ℚ) / 2) := by
  refine ⟨?_, ?_, ?_, ?_, ?_, ?_, ?_⟩
  · intro d1 d2 post h1 h2 h3 h4 h5 _
    rw [clean_days_value, shape_mid_to h1 h2 h3 h4 h5]
    rfl
  · intro d1 d2 post h1 h2 h3 h4 h5 _
    rw [clean_days_value, shape_mid_dash h1 h2 h3 h4 h5]
    rfl
  · intro d1 d2 post h1 h2 h3 h4 h5 _
    rw [clean_days_value, shape_mid_endash h1 h2 h3 h4 h5]
    rfl
  · intro d1 d2 post h1 h2 h3 h4 h5 _
    rw [clean_days_value, shape_mid_tilde h1 h2 h3 h4 h5]
    rfl
  · have h : clean_days_shape (some "1 to 2-3") = .range 1 2 := by decide
    rw [clean_days_value, h]
    norm_num [DaysResult.value]
  · have h : clean_days_shape (some "1–2-3") = .range 2 3 := by decide
    rw [clean_days_value, h]
    norm_num [DaysResult.value]
  · have h : clean_days_shape (some "1~2–3") = .range 2 3 := by decide
    rw [clean_days_value, h]
    norm_num [DaysResult.value]

theorem claim_C3_witness :
    natOfDigits ['2', '9'] ≤ natOfDigits ['3', '5'] ∧
      clean_days_value (some (String.mk (['2', '9'] ++
          (" to ".toList ++ (['3', '5'] ++ (' ' :: ['d', 'a', 'y', 's']))))))
        = some ((natOfDigits ['2', '9'] + natOfDigits ['3', '5'] : ℚ) / 2) :=
  ⟨by decide, claim_C3_range_patterns.1 ['2', '9'] ['3', '5'] _ (by decide)
    (by decide) (by decide) (by decide) (Or.inr rfl) (by decide)⟩

theorem claim_C5_witness :
    searchSingle (prepDays "25 days") = some 25 ∧
      clean_days_value (some "25 days") = some ((25 : Nat) : ℚ) :=
  ⟨by decide, claim_C5_single_number_rule.1 "25 days" 25 (by decide) (by decide)
    (by decide) (by decide) (by decide) (by decide)⟩

/-! ## Claim theorems: classifier, parser, import summary -/

/-- C7: file classification is a total deterministic function of the
filename.  get_file_type is a Lean function, hence total on strings and
deterministic (classifying the same filename twice trivially yields the same
result); its codomain is the three layout tags plus none ("skip").  The four
equivalences characterize it as case-insensitive substring matching against
the fixed ordered keyword groups, first matching group winning with no
partial scoring: the template group wins outright, the empties group applies
exactly when the template group missed, the full-export group exactly when
both earlier groups missed, and a filename matching no group is skipped. -/
theorem claim_C7_classifier_characterization :
    ∀ filename : String,
      (get_file_type filename = some FileType.LS_Template ↔
        (hasSub "ls template" (pyLower filename)
          || hasSub "ls templet" (pyLower filename)) = true) ∧
      (get_file_type filename = some FileType.Export_Empties ↔
        (hasSub "ls template" (pyLower filename)
          || hasSub "ls templet" (pyLower filename)) = false ∧
        (hasSub "export_empties_longstandings" (pyLower filename)
          || hasSub "empties longstanding" (pyLower filename)) = true) ∧
      (get_file_type filename = some FileType.Export_Longstandings ↔
        (hasSub "ls template" (pyLower filename)
          || hasSub "ls templet" (pyLower filename)) = false ∧
        (hasSub "export_empties_longstandings" (pyLower filename)
          || hasSub "empties longstanding" (pyLower filename)) = false ∧
        (hasSub "export_longstandings" (pyLower filename)
          || hasSub "export longstanding" (pyLower filename)) = true) ∧
      (get_file_type filename = none ↔
        (hasSub "ls template" (pyLower filename)
          || hasSub "ls templet" (pyLower filename)) = false ∧
        (hasSub "export_empties_longstandings" (pyLower filename)
          || hasSub "empties longstanding" (pyLower filename)) = false ∧
        (hasSub "export_longstandings" (pyLower filename)
          || hasSub "export longstanding" (pyLower filename)) = false) := by
  intro filename
  simp only [get_file_type]
  cases h1 : hasSub "ls template" (pyLower filename)
      || hasSub "ls templet" (pyLower filename) <;>
    cases h2 : hasSub "export_empties_longstandings" (pyLower filename)
        || hasSub "empties longstanding" (pyLower filename) <;>
      cases h3 : hasSub "export_longstandings" (pyLower filename)
          || hasSub "export longstanding" (pyLower filename) <;>
        simp [h1, h2, h3]

theorem claim_C7_witness :
    get_file_type "Week26 LS Template.xlsx" = some FileType.LS_Template :=
  (claim_C7_classifier_characterization "Week26 LS Template.xlsx").1.mpr (by decide)

theorem parse_step_eq (acc : List Int) (part : List Char) :
    (if part.contains '-' then
      match splitOn '-' part with
      | [st, en] =>
        match pyInt (pyStrip st), pyInt (pyStrip en) with
        | some a, some b => acc ++ intRange a b
        | _, _ => acc
      | _ => acc
    else
      match pyInt part with
      | some n => acc ++ [n]
      | none => acc)
    = acc ++ tokenWeeks part := by
  unfold tokenWeeks
  cases hc : part.contains '-'
  · simp only [Bool.false_eq_true, if_false]
    cases hpi : pyInt part
    · simp
    · simp
  · simp only [if_true]
    cases hsp : splitOn '-' part with
    | nil => simp
    | cons st rest =>
      cases rest with
      | nil => simp
      | cons en rest2 =>
        cases rest2 with
        | nil =>
          cases hst : pyInt (pyStrip st) with
          | none => cases hen : pyInt (pyStrip en) <;> simp [hst, hen]
          | some a => cases hen : pyInt (pyStrip en) <;> simp [hst, hen]
        | cons z zs => simp

theorem parse_week_foldl :
    ∀ (parts : List (List Char)) (acc : List Int),
      parts.foldl
        (fun acc part =>
          if part.contains '-' then
            match splitOn '-' part with
            | [st, en] =>
              match pyInt (pyStrip st), pyInt (pyStrip en) with
              | some a, some b => acc ++ intRange a b
              | _, _ => acc
            | _ => acc
          else
            match pyInt part with
            | some n => acc ++ [n]
            | none => acc)
        acc
      = acc ++ (parts.map tokenWeeks).flatten
  | [], acc => by simp
  | part :: parts, acc => by
    simp only [List.foldl_cons, List.map_cons, List.flatten_cons]
    rw [parse_step_eq acc part, parse_week_foldl parts (acc ++ tokenWeeks part)]
    simp [List.append_assoc]

theorem parse_week_mem (s : String) (n : Int) :
    n ∈ parse_week_input s ↔
      ∃ part ∈ (splitOn ',' s.toList).map pyStrip, n ∈ tokenWeeks part := by
  simp only [parse_week_input]
  rw [parse_week_foldl, List.nil_append, List.mem_insertionSort, List.mem_dedup,
    List.mem_flatten]
  constructor
  · rintro ⟨l, hl, hn⟩
    rcases List.mem_map.mp hl with ⟨part, hpart, rfl⟩
    exact ⟨part, hpart, hn⟩
  · rintro ⟨part, hpart, hn⟩
    exact ⟨tokenWeeks part, List.mem_map.mpr ⟨part, hpart, rfl⟩, hn⟩

theorem tokenWeeks_int {part : List Char} {n : Int} (hc : part.contains '-' = false)
    (hp : pyInt part = some n) : tokenWeeks part = [n] := by
  unfold tokenWeeks
  rw [if_neg (by rw [hc]; simp)]
  simp only [hp]

theorem tokenWeeks_int_invalid {part : List Char} (hc : part.contains '-' = false)
    (hp : pyInt part = none) : tokenWeeks part = [] := by
  unfold tokenWeeks
  rw [if_neg (by rw [hc]; simp)]
  simp only [hp]

theorem tokenWeeks_range {part st en : List Char} {a b : Int}
    (hc : part.contains '-' = true) (hsp : splitOn '-' part = [st, en])
    (ha : pyInt (pyStrip st) = some a) (hb : pyInt (pyStrip en) = some b) :
    tokenWeeks part = intRange a b := by
  unfold tokenWeeks
  rw [if_pos hc]
  simp only [hsp, ha, hb]

theorem tokenWeeks_range_invalid {part st en : List Char}
    (hc : part.contains '-' = true) (hsp : splitOn '-' part = [st, en])
    (h : pyInt (pyStrip st) = none ∨ pyInt (pyStrip en) = none) :
    tokenWeeks part = [] := by
  unfold tokenWeeks
  rw [if_pos hc]
  rcases h with h | h
  · cases hen : pyInt (pyStrip en) <;> simp only [hsp, h, hen]
  · cases hst : pyInt (pyStrip st) <;> simp only [hsp, h, hst]

theorem tokenWeeks_bad_split {part : List Char} (hc : part.contains '-' = true)
    (h : (splitOn '-' part).length ≠ 2) : tokenWeeks part = [] := by
  unfold tokenWeeks
  rw [if_pos hc]
  cases hsp : splitOn '-' part with
  | nil => simp only [hsp]
  | cons st rest =>
    cases rest with
    | nil => simp only [hsp]
    | cons en rest2 =>
      cases rest2 with
      | nil => exact absurd (by rw [hsp]; rfl) h
      | cons z zs => simp only [hsp]

theorem mem_intRange {n a b : Int} : n ∈ intRange a b ↔ a ≤ n ∧ n ≤ b := by
  unfold intRange
  by_cases hab : a ≤ b
  · rw [if_pos hab]
    simp only [List.mem_map, List.mem_range]
    constructor
    · rintro ⟨i, hi, rfl⟩
      constructor
      · omega
      · omega
    · rintro ⟨h1, h2⟩
      refine ⟨(n - a).toNat, ?_, ?_⟩
      · omega
      · omega
  · rw [if_neg hab]
    simp only [List.not_mem_nil, false_iff]
    omega

/-- C8: period-specification parsing.  The three examples of the
specification hold: "26,28-30" parses to {26,28,29,30}, the degenerate range
"5-5" to {5}, and the invalid token "x" in "x,7" is skipped without affecting
"7".  For every input string the result is strictly ascending, hence
duplicate-free: duplicates collapse and the set comes back sorted.  The
universal content: for every input string, an integer is in the result
exactly when some comma-separated (stripped) token names it, where the
integers named by a token are: for a valid "A-B" token the inclusive range
from A to B, for a valid integer token the integer itself, and for an invalid
token — unparsable pieces, or a dash-token not splitting into exactly two
pieces — nothing, so an invalid token is skipped without affecting the
others.  The console warning printed for an invalid token is I/O and is not
modelled. -/
theorem claim_C8_parse_week_spec :
    parse_week_input "26,28-30" = [26, 28, 29, 30] ∧
      parse_week_input "5-5" = [5] ∧
      parse_week_input "x,7" = [7] ∧
      (∀ s : String, (parse_week_input s).Sorted (fun a b : Int => a < b)) ∧
      (∀ (s : String) (n : Int), n ∈ parse_week_input s ↔
        ∃ part ∈ (splitOn ',' s.toList).map pyStrip, n ∈ tokenWeeks part) ∧
      (∀ (part : List Char) (n : Int), part.contains '-' = false →
        pyInt part = some n → tokenWeeks part = [n]) ∧
      (∀ part : List Char, part.contains '-' = false →
        pyInt part = none → tokenWeeks part = []) ∧
      (∀ (part st en : List Char) (a b : Int), part.contains '-' = true →
        splitOn '-' part = [st, en] → pyInt (pyStrip st) = some a →
        pyInt (pyStrip en) = some b → tokenWeeks part = intRange a b) ∧
      (∀ (part st en : List Char), part.contains '-' = true →
        splitOn '-' part = [st, en] →
        (pyInt (pyStrip st) = none ∨ pyInt (pyStrip en) = none) →
        tokenWeeks part = []) ∧
      (∀ part : List Char, part.contains '-' = true →
        (splitOn '-' part).length ≠ 2 → tokenWeeks part = []) ∧
      ∀ (n a b : Int), n ∈ intRange a b ↔ a ≤ n ∧ n ≤ b := by
  refine ⟨by decide, by decide, by decide, fun s => ?_, parse_week_mem,
    fun part n hc hp => tokenWeeks_int hc hp,
    fun part hc hp => tokenWeeks_int_invalid hc hp,
    fun part st en a b hc hsp ha hb => tokenWeeks_range hc hsp ha hb,
    fun part st en hc hsp h => tokenWeeks_range_invalid hc hsp h,
    fun part hc h => tokenWeeks_bad_split hc h,
    fun n a b => mem_intRange⟩
  have hsorted : (parse_week_input s).Sorted (fun a b : Int => a ≤ b) := by
    unfold parse_week_input
    exact List.sorted_insertionSort _ _
  have hnodup : (parse_week_input s).Nodup := by
    unfold parse_week_input
    exact (List.perm_insertionSort _ _).nodup_iff.mpr (List.nodup_dedup _)
  exact hsorted.lt_of_le hnodup

theorem claim_C8_witness :
    ("28-30".toList.contains '-') = true ∧
      splitOn '-' "28-30".toList = ["28".toList, "30".toList] ∧
      pyInt (pyStrip "28".toList) = some 28 ∧
      pyInt (pyStrip "30".toList) = some 30 ∧
      tokenWeeks "28-30".toList = intRange 28 30 ∧
      ((29 : Int) ∈ parse_week_input "26,28-30" ↔
        ∃ part ∈ (splitOn ',' ("26,28-30").toList).map pyStrip,
          (29 : Int) ∈ tokenWeeks part) :=
  ⟨by decide, by decide, by decide, by decide,
    claim_C8_parse_week_spec.2.2.2.2.2.2.2.1 "28-30".toList "28".toList "30".toList
      28 30 (by decide) (by decide) (by decide) (by decide),
    claim_C8_parse_week_spec.2.2.2.2.1 "26,28-30" 29⟩

/-- C9 counterexample: with two processed weeks each extracting exactly one
record, the second summary row records ShipmentsExtracted = 2 — the
cumulative total over all weeks so far — while the records extracted for that
period alone number 1.  The claim "the recorded total of records extracted
equals the number of records extracted for that period" is false on the
code. -/
theorem claim_C9_counterexample :
    (runSummary "2025" "July" wdemo).map (fun r => r.shipmentsExtracted) = [1, 2] ∧
      extractedCount (wdemo.getD 1 ⟨"", false, 0, 0, []⟩) = 1 ∧
      ((runSummary "2025" "July" wdemo).getD 1 ⟨"", "", "", 0, 0, 0⟩).shipmentsExtracted
        ≠ extractedCount (wdemo.getD 1 ⟨"", false, 0, 0, []⟩) :=
  ⟨by decide, by decide, by decide⟩

theorem goSummary_spec (year month : String) :
    ∀ (weeks : List WeekData) (allData : List Nat),
      (goSummary year month allData weeks).map (fun r => r.week)
          = (weeks.filter (fun w => w.found)).map (fun w => w.name) ∧
        (goSummary year month allData weeks).map (fun r => r.shipmentsExtracted)
          = cumSums allData.sum ((weeks.filter (fun w => w.found)).map extractedCount)
  | [], _ => ⟨rfl, rfl⟩
  | w :: ws, allData => by
    cases hf : w.found with
    | false =>
      simp only [goSummary, hf, Bool.false_eq_true, if_false, List.filter_cons, hf]
      exact goSummary_spec year month ws allData
    | true =>
      have ih := goSummary_spec year month ws
        (allData ++ w.tables.filter (fun n => !(n == 0)))
      simp only [goSummary, hf, if_true, List.filter_cons, List.map_cons, cumSums,
        List.sum_append]
      refine ⟨?_, ?_⟩
      · rw [ih.1]
      · rw [ih.2, List.sum_append]
        rfl

/-- C9 amended: the summary has exactly one row per processed period (per
week whose folder was found), in order, and the recorded ShipmentsExtracted
of each row equals the CUMULATIVE number of records extracted over all
periods processed up to and including that one (the code sums the running
all_data list), not the per-period count. -/
theorem claim_C9_cumulative_summary :
    ∀ (year month : String) (weeks : List WeekData),
      (runSummary year month weeks).map (fun r => r.week)
          = (weeks.filter (fun w => w.found)).map (fun w => w.name) ∧
        (runSummary year month weeks).map (fun r => r.shipmentsExtracted)
          = cumSums 0 ((weeks.filter (fun w => w.found)).map extractedCount) := by
  intro year month weeks
  exact goSummary_spec year month weeks []

/-! ## Sort lemmas for the master merge

sortMaster is a stable insertion sort under the total transitive relation
rowLe; the lemmas below show that re-sorting an already-sorted prefix changes
nothing and that filtering commutes with sorting. -/

theorem OI_comm {a b : MasterRow} (hab : ¬ rowLe a b) :
    ∀ l, List.orderedInsert rowLe b (List.orderedInsert rowLe a l)
      = List.orderedInsert rowLe a (List.orderedInsert rowLe b l)
  | [] => by
    have hba : rowLe b a := (IsTotal.total a b).resolve_left hab
    simp [List.orderedInsert, hab, hba]
  | c :: t => by
    by_cases hac : rowLe a c
    · by_cases hbc : rowLe b c
      · have hba : rowLe b a := (IsTotal.total a b).resolve_left hab
        simp [List.orderedInsert, hac, hbc, hab, hba]
      · exfalso
        have hcb : rowLe c b := (IsTotal.total b c).resolve_left hbc
        exact hab (Trans.trans hac hcb)
    · by_cases hbc : rowLe b c
      · simp [List.orderedInsert, hac, hbc, hab]
      · simp only [List.orderedInsert, if_neg hac, if_neg hbc]
        rw [OI_comm hab t]

theorem foldr_OI_insert :
    ∀ (M : List MasterRow) (S : List MasterRow) (a : MasterRow),
      List.foldr (List.orderedInsert rowLe) S (List.orderedInsert rowLe a M)
        = List.orderedInsert rowLe a (List.foldr (List.orderedInsert rowLe) S M)
  | [], _, _ => rfl
  | b :: t, S, a => by
    by_cases hab : rowLe a b
    · simp [List.orderedInsert, hab]
    · simp only [List.orderedInsert, if_neg hab, List.foldr_cons]
      rw [foldr_OI_insert t S a, OI_comm hab]

theorem insertionSort_append_foldr :
    ∀ (L Y : List MasterRow),
      List.insertionSort rowLe (L ++ Y)
        = List.foldr (List.orderedInsert rowLe) (List.insertionSort rowLe Y) L
  | [], _ => rfl
  | x :: L, Y => by
    simp only [List.cons_append, List.insertionSort, List.foldr_cons, List.append_eq]
    rw [insertionSort_append_foldr L Y]

theorem foldr_OI_insertionSort :
    ∀ (X : List MasterRow) (S : List MasterRow),
      List.foldr (List.orderedInsert rowLe) S (List.insertionSort rowLe X)
        = List.foldr (List.orderedInsert rowLe) S X
  | [], _ => rfl
  | x :: X, S => by
    simp only [List.insertionSort, List.foldr_cons]
    rw [foldr_OI_insert, foldr_OI_insertionSort X S]

theorem sortMaster_sortMaster_append (X Y : List MasterRow) :
    sortMaster (sortMaster X ++ Y) = sortMaster (X ++ Y) := by
  unfold sortMaster
  rw [insertionSort_append_foldr, insertionSort_append_foldr, foldr_OI_insertionSort]

theorem OI_cons_of_forall {a : MasterRow} :
    ∀ {S : List MasterRow}, (∀ x ∈ S, rowLe a x) →
      List.orderedInsert rowLe a S = a :: S
  | [], _ => rfl
  | c :: t, h => by simp [List.orderedInsert, h c (by simp)]

theorem filter_orderedInsert {p : MasterRow → Bool} {a : MasterRow} :
    ∀ {S : List MasterRow}, S.Sorted rowLe →
      (List.orderedInsert rowLe a S).filter p
        = if p a then List.orderedInsert rowLe a (S.filter p) else S.filter p
  | [], _ => by
    cases hpa : p a <;> simp [List.orderedInsert, List.filter_cons, hpa]
  | c :: t, hS => by
    by_cases hac : rowLe a c
    · cases hpa : p a
      · simp [List.orderedInsert, hac, List.filter_cons, hpa]
      · have hforall : ∀ x ∈ (c :: t).filter p, rowLe a x := by
          intro x hx
          have hx2 := List.mem_of_mem_filter hx
          rcases List.mem_cons.mp hx2 with rfl | hxt
          · exact hac
          · exact Trans.trans hac (List.rel_of_sorted_cons hS x hxt)
        rw [OI_cons_of_forall hforall]
        simp [List.orderedInsert, hac, List.filter_cons, hpa]
    · have ih := filter_orderedInsert (p := p) (a := a) hS.of_cons
      cases hpa : p a
      · simp only [List.orderedInsert, if_neg hac, List.filter_cons]
        cases hpc : p c
        · simp only [Bool.false_eq_true, if_false]
          rw [ih]
          simp [hpa]
        · simp only [if_true]
          rw [ih]
          simp [hpa]
      · simp only [List.orderedInsert, if_neg hac, List.filter_cons]
        cases hpc : p c
        · simp only [Bool.false_eq_true, if_false]
          rw [ih]
          simp [hpa]
        · simp only [if_true]
          rw [ih]
          simp only [hpa, if_true]
          rw [List.orderedInsert, if_neg hac]

theorem filter_sortMaster (p : MasterRow → Bool) :
    ∀ l, (sortMaster l).filter p = sortMaster (l.filter p)
  | [] => rfl
  | x :: l => by
    show (List.orderedInsert rowLe x (List.insertionSort rowLe l)).filter p
      = sortMaster ((x :: l).filter p)
    rw [filter_orderedInsert (List.sorted_insertionSort rowLe l)]
    have ih : (List.insertionSort rowLe l).filter p = sortMaster (l.filter p) :=
      filter_sortMaster p l
    cases hpx : p x
    · simp only [Bool.false_eq_true, if_false]
      rw [ih]
      simp [List.filter_cons, hpx]
    · simp only [if_true]
      rw [ih]
      simp only [List.filter_cons, hpx, if_true]
      rfl

theorem filter_idem {α : Type} (q : α → Bool) (l : List α) :
    (l.filter q).filter q = l.filter q := by
  rw [List.filter_filter]
  congr 1
  funext a
  exact Bool.and_self (q a)

theorem filter_pos_of_neg (p : MasterRow → Bool) (l : List MasterRow) :
    (l.filter (fun r => !(p r))).filter p = [] := by
  rw [List.filter_filter]
  rw [List.filter_eq_nil_iff]
  intro a _
  cases p a <;> simp

theorem merge_core (base cur : List MasterRow) (P : List Nat)
    (hb1 : base.filter (fun r => !(weekInSet P r)) = base)
    (hb2 : base.filter (weekInSet P) = [])
    (hall : ∀ r ∈ cur, weekInSet P r = true) :
    (sortMaster (base ++ cur)).filter (fun r => !(weekInSet P r)) = sortMaster base ∧
      List.Perm ((sortMaster (base ++ cur)).filter (weekInSet P)) cur := by
  constructor
  · rw [filter_sortMaster, List.filter_append, hb1]
    have hcur : cur.filter (fun r => !(weekInSet P r)) = [] := by
      rw [List.filter_eq_nil_iff]
      intro a ha
      rw [hall a ha]
      simp
    rw [hcur, List.append_nil]
  · rw [filter_sortMaster, List.filter_append, hb2]
    have hcur : cur.filter (weekInSet P) = cur := List.filter_eq_self.mpr hall
    rw [hcur, List.nil_append]
    exact List.perm_insertionSort _ _

/-- C1: merge idempotence.  When every new record's period lies in the
just-processed period set P and the merge produces a master table T, then
(1) running the merge a second time with the same P and the same new records
on T yields T again, and (2) the rows of T whose period is in P are, as a
multiset, exactly the new records — no duplication, no residue of the old
rows.  (When the merge produces no table — the empty-df_list guard — there is
no resulting table and the statement is vacuous; see C4.) -/
theorem claim_C1_merge_idempotent :
    ∀ (existing : Option (List MasterRow)) (df_list : List (List MasterRow))
      (P : List Nat),
      (∀ r ∈ df_list.flatten, weekInSet P r = true) →
      ∀ T, create_master_file df_list existing P = some T →
        create_master_file df_list (some T) P = some T ∧
          List.Perm (T.filter (weekInSet P)) df_list.flatten := by
  intro existing dfl P hall T hT
  cases hde : dfl.isEmpty with
  | true => simp [create_master_file, hde] at hT
  | false =>
    have hbase : ∃ base, create_master_file dfl existing P
        = some (sortMaster (base ++ dfl.flatten)) ∧
        base.filter (fun r => !(weekInSet P r)) = base ∧
        base.filter (weekInSet P) = [] := by
      rcases existing with _ | M
      · exact ⟨[], by simp [create_master_file, hde], rfl, rfl⟩
      · exact ⟨M.filter (fun r => !(weekInSet P r)),
          by simp [create_master_file, hde], filter_idem _ M, filter_pos_of_neg _ M⟩
    rcases hbase with ⟨base, hc, hb1, hb2⟩
    rw [hc] at hT
    have hTeq : sortMaster (base ++ dfl.flatten) = T := by injection hT
    obtain ⟨h1, h2⟩ := merge_core base dfl.flatten P hb1 hb2 hall
    constructor
    · have hopen : create_master_file dfl (some T) P
          = some (sortMaster (T.filter (fun r => !(weekInSet P r)) ++ dfl.flatten)) := by
        simp [create_master_file, hde]
      rw [hopen, ← hTeq, h1, sortMaster_sortMaster_append, hTeq]
    · rw [← hTeq]
      exact h2

theorem claim_C1_witness :
    (∀ r ∈ ([[exRow5]] : List (List MasterRow)).flatten, weekInSet [5] r = true) ∧
      create_master_file [[exRow5]] (some [exRow6]) [5] = some [exRow5, exRow6] ∧
      create_master_file [[exRow5]] (some [exRow5, exRow6]) [5] = some [exRow5, exRow6] ∧
      List.Perm ([exRow5, exRow6].filter (weekInSet [5]))
        (([[exRow5]] : List (List MasterRow)).flatten) := by
  have happ := claim_C1_merge_idempotent (some [exRow6]) [[exRow5]] [5] (by decide)
    [exRow5, exRow6] (by decide)
  exact ⟨by decide, by decide, happ.1, happ.2⟩

/-- C4 counterexample: a master table holding the period-5 row exRow5, rerun
with period 5 in the processed set but an EMPTY new-record set: the merge
refuses ("No data to process", returns None), the persisted master is
unchanged, and the period-5 row is still there — it is not removed as the
claim asserts. -/
theorem claim_C4_counterexample :
    masterAfterRun (some [exRow5]) [] [5] = some [exRow5] ∧
      weekInSet [5] exRow5 = true ∧
      ([exRow5].filter (weekInSet [5])) ≠ [] :=
  ⟨by decide, by decide, by decide⟩

/-- C4 amended: running the master merge with an empty new-record set is a
refused no-op for every master table and period set: create_master_file
returns None without writing, so the persisted master — period-5 rows
included — is unchanged.  (Purging a period happens only as part of a run
whose new-record set is nonempty.) -/
theorem claim_C4_empty_rerun_is_noop :
    ∀ (existing : Option (List MasterRow)) (P : List Nat),
      create_master_file [] existing P = none ∧
        masterAfterRun existing [] P = existing := by
  intro existing P
  exact ⟨rfl, rfl⟩

/-! ## Frame lemmas for the record extractor -/

theorem idxOf_eq_none {c : String} :
    ∀ {l : List String}, idxOf c l = none ↔ ¬ (c ∈ l)
  | [] => by simp [idxOf]
  | h :: t => by
    by_cases hh : h = c
    · simp [idxOf, hh]
    · simp only [idxOf, if_neg hh, Option.map_eq_none', List.mem_cons]
      rw [idxOf_eq_none]
      constructor
      · intro hn hc
        rcases hc with rfl | hc
        · exact hh rfl
        · exact hn hc
      · intro hn hc
        exact hn (Or.inr hc)

theorem idxOf_lt_length {c : String} :
    ∀ {l : List String} {i : Nat}, idxOf c l = some i → i < l.length
  | [], i, h => by simp [idxOf] at h
  | h :: t, i, hi => by
    by_cases hh : h = c
    · simp only [idxOf, if_pos hh, Option.some.injEq] at hi
      simp [← hi]
    · simp only [idxOf, if_neg hh, Option.map_eq_some'] at hi
      rcases hi with ⟨j, hj, rfl⟩
      have := idxOf_lt_length hj
      simp only [List.length_cons]
      omega

theorem idxOf_getD {c : String} :
    ∀ {l : List String} {i : Nat}, idxOf c l = some i → l.getD i "" = c
  | [], i, h => by simp [idxOf] at h
  | h :: t, i, hi => by
    by_cases hh : h = c
    · simp only [idxOf, if_pos hh, Option.some.injEq] at hi
      simp [← hi, hh]
    · simp only [idxOf, if_neg hh, Option.map_eq_some'] at hi
      rcases hi with ⟨j, hj, rfl⟩
      simpa using idxOf_getD hj

theorem idxOf_append_left {c : String} :
    ∀ {l₁ : List String} (l₂ : List String), c ∈ l₁ →
      idxOf c (l₁ ++ l₂) = idxOf c l₁
  | [], _, h => by simp at h
  | h :: t, l₂, hc => by
    by_cases hh : h = c
    · simp [idxOf, hh]
    · have hct : c ∈ t := by
        rcases List.mem_cons.mp hc with rfl | hct
        · exact absurd rfl hh
        · exact hct
      simp only [List.cons_append, idxOf, if_neg hh, List.append_eq]
      rw [idxOf_append_left l₂ hct]

theorem idxOf_append_self {c : String} :
    ∀ {l : List String}, ¬ (c ∈ l) → idxOf c (l ++ [c]) = some l.length
  | [], _ => by simp [idxOf]
  | h :: t, hc => by
    have hh : ¬ (h = c) := by
      intro hh
      exact hc (by simp [hh])
    simp only [List.cons_append, idxOf, if_neg hh, List.append_eq]
    rw [idxOf_append_self (fun hct => hc (by simp [hct]))]
    rfl

theorem getD_set_ne {l : List String} {i j : Nat} (h : i ≠ j) (v d : String) :
    (l.set i v).getD j d = l.getD j d := by
  rw [List.getD_eq_getElem?_getD, List.getD_eq_getElem?_getD, List.getElem?_set_ne h]

theorem getD_concat_self (l : List String) (v d : String) :
    (l ++ [v]).getD l.length d = v := by
  rw [List.getD_eq_getElem?_getD, List.getElem?_concat_length]
  rfl

theorem getD_map {g : String → String} {l : List String} {i : Nat}
    (h : i < l.length) (d d' : String) :
    (l.map g).getD i d = g (l.getD i d') := by
  rw [List.getD_eq_getElem?_getD, List.getElem?_map, List.getElem?_eq_getElem h,
    List.getD_eq_getElem?_getD, List.getElem?_eq_getElem h]
  rfl

theorem Rect_setColConst {f : PyFrame} (hf : Rect f) (name v : String) :
    Rect (setColConst f name v) := by
  unfold setColConst
  cases hidx : idxOf name f.headers with
  | some i =>
    intro r hr
    rcases List.mem_map.mp hr with ⟨r0, hr0, rfl⟩
    simp [List.length_set, hf r0 hr0]
  | none =>
    intro r hr
    rcases List.mem_map.mp hr with ⟨r0, hr0, rfl⟩
    simp [List.length_append, hf r0 hr0]

theorem setColConst_headers_mem {f : PyFrame} {name : String} (h : name ∈ f.headers)
    (v : String) : (setColConst f name v).headers = f.headers := by
  unfold setColConst
  cases hidx : idxOf name f.headers with
  | some i => rfl
  | none => exact absurd (idxOf_eq_none.mp hidx) (by simp [h])

theorem setColConst_headers_not_mem {f : PyFrame} {name : String}
    (h : ¬ (name ∈ f.headers)) (v : String) :
    (setColConst f name v).headers = f.headers ++ [name] := by
  unfold setColConst
  cases hidx : idxOf name f.headers with
  | some i =>
    exfalso
    have hget := idxOf_getD hidx
    have hlt := idxOf_lt_length hidx
    apply h
    rw [← hget, List.getD_eq_getElem?_getD, List.getElem?_eq_getElem hlt]
    exact List.getElem_mem hlt
  | none => rfl

theorem colVal_setColConst_other {f : PyFrame} (hf : Rect f) {c name : String}
    (hc : c ∈ f.headers) (hne : ¬ (c = name)) (v : String) :
    (setColConst f name v).rows.map (colVal (setColConst f name v) c)
      = f.rows.map (colVal f c) := by
  have hcb : ∃ j, idxOf c f.headers = some j := by
    cases hidx : idxOf c f.headers with
    | some j => exact ⟨j, rfl⟩
    | none => exact absurd (idxOf_eq_none.mp hidx) (by simp [hc])
  rcases hcb with ⟨j, hj⟩
  unfold setColConst
  cases hidx : idxOf name f.headers with
  | some i =>
    simp only [List.map_map]
    apply List.map_congr_left
    intro r _
    simp only [Function.comp_apply, colVal, hj]
    have hij : ¬ (i = j) := by
      intro hij
      apply hne
      have h1 := idxOf_getD hj
      have h2 := idxOf_getD hidx
      rw [← h1, ← h2, hij]
    exact getD_set_ne hij v ""
  | none =>
    simp only [List.map_map]
    apply List.map_congr_left
    intro r hr
    simp only [Function.comp_apply, colVal, idxOf_append_left [name] hc, hj]
    have hjl : j < r.length := by
      rw [hf r hr]
      exact idxOf_lt_length hj
    exact List.getD_append r [v] "" j hjl

theorem colVal_setColConst_self_new {f : PyFrame} (hf : Rect f) {name : String}
    (hn : ¬ (name ∈ f.headers)) :
    ∀ r' ∈ (setColConst f name "").rows, colVal (setColConst f name "") name r' = "" := by
  have hidx : idxOf name f.headers = none := idxOf_eq_none.mpr hn
  intro r' hr'
  simp only [setColConst, hidx] at hr' ⊢
  rcases List.mem_map.mp hr' with ⟨r, hr, rfl⟩
  simp only [colVal, idxOf_append_self hn]
  rw [← hf r hr]
  exact getD_concat_self r "" ""

theorem Rect_backfillStep {f : PyFrame} (hf : Rect f) (col : String) :
    Rect (backfillStep f col) := by
  unfold backfillStep
  split
  · exact hf
  · exact Rect_setColConst hf col ""

theorem backfill_preserve :
    ∀ (cols : List String) (F : PyFrame) (c : String), Rect F → c ∈ F.headers →
      (∀ r ∈ F.rows, colVal F c r = "") →
      Rect (cols.foldl backfillStep F) ∧ c ∈ (cols.foldl backfillStep F).headers ∧
        ∀ r ∈ (cols.foldl backfillStep F).rows,
          colVal (cols.foldl backfillStep F) c r = ""
  | [], F, c, hR, hc, hv => ⟨hR, hc, hv⟩
  | col :: cols, F, c, hR, hc, hv => by
    simp only [List.foldl_cons]
    by_cases hcon : F.headers.contains col = true
    · have hid : backfillStep F col = F := by
        unfold backfillStep
        rw [hcon]
        rfl
      rw [hid]
      exact backfill_preserve cols F c hR hc hv
    · have hcon2 : F.headers.contains col = false := by
        cases h : F.headers.contains col
        · rfl
        · exact absurd h hcon
      have hstep : backfillStep F col = setColConst F col "" := by
        unfold backfillStep
        rw [hcon2]
        rfl
      rw [hstep]
      have hcolnot : ¬ (col ∈ F.headers) := by
        intro h
        exact hcon (by simpa using h)
      have hne : ¬ (c = col) := fun h => hcolnot (h ▸ hc)
      have hR2 := Rect_setColConst hR col ""
      have hc2 : c ∈ (setColConst F col "").headers := by
        rw [setColConst_headers_not_mem hcolnot]
        simp [hc]
      have hv2 : ∀ r ∈ (setColConst F col "").rows,
          colVal (setColConst F col "") c r = "" := by
        have hmapeq := colVal_setColConst_other hR hc hne ""
        intro r2 hr2
        have hmem : colVal (setColConst F col "") c r2 ∈
            (setColConst F col "").rows.map (colVal (setColConst F col "") c) :=
          List.mem_map.mpr ⟨r2, hr2, rfl⟩
        rw [hmapeq] at hmem
        rcases List.mem_map.mp hmem with ⟨r0, hr0, heq⟩
        rw [← heq]
        exact hv r0 hr0
      exact backfill_preserve cols _ c hR2 hc2 hv2

theorem backfill_sets :
    ∀ (cols : List String) (F : PyFrame) (c : String), Rect F → c ∈ cols →
      ¬ (c ∈ F.headers) →
      Rect (cols.foldl backfillStep F) ∧ c ∈ (cols.foldl backfillStep F).headers ∧
        ∀ r ∈ (cols.foldl backfillStep F).rows,
          colVal (cols.foldl backfillStep F) c r = ""
  | [], _, c, _, hc, _ => by simp at hc
  | col :: cols, F, c, hR, hc, hnot => by
    simp only [List.foldl_cons]
    by_cases hcc : col = c
    · subst hcc
      have hcon2 : F.headers.contains col = false := by
        cases h : F.headers.contains col
        · rfl
        · exact absurd (by simpa using h) hnot
      have hstep : backfillStep F col = setColConst F col "" := by
        unfold backfillStep
        rw [hcon2]
        rfl
      rw [hstep]
      exact backfill_preserve cols _ col (Rect_setColConst hR col "")
        (by rw [setColConst_headers_not_mem hnot]; simp)
        (colVal_setColConst_self_new hR hnot)
    · have hcs : c ∈ cols := by
        rcases List.mem_cons.mp hc with heq | h
        · exact absurd heq.symm hcc
        · exact h
      by_cases hcon : F.headers.contains col = true
      · have hid : backfillStep F col = F := by
          unfold backfillStep
          rw [hcon]
          rfl
        rw [hid]
        exact backfill_sets cols F c hR hcs hnot
      · have hcon2 : F.headers.contains col = false := by
          cases h : F.headers.contains col
          · rfl
          · exact absurd h hcon
        have hcolnot : ¬ (col ∈ F.headers) := by
          intro h
          exact hcon (by simpa using h)
        have hstep : backfillStep F col = setColConst F col "" := by
          unfold backfillStep
          rw [hcon2]
          rfl
        rw [hstep]
        refine backfill_sets cols _ c (Rect_setColConst hR col "") hcs ?_
        rw [setColConst_headers_not_mem hcolnot]
        simp only [List.mem_append, List.mem_singleton]
        rintro (h | h)
        · exact hnot h
        · exact hcc h.symm

theorem Rect_copyCol {f : PyFrame} (hf : Rect f) (src dst : String) :
    Rect (copyCol f src dst) := by
  unfold copyCol
  cases h1 : idxOf src f.headers with
  | none => exact hf
  | some i =>
    cases h2 : idxOf dst f.headers with
    | some j =>
      intro r hr
      rcases List.mem_map.mp hr with ⟨r0, hr0, rfl⟩
      simp [List.length_set, hf r0 hr0]
    | none =>
      intro r hr
      rcases List.mem_map.mp hr with ⟨r0, hr0, rfl⟩
      simp [hf r0 hr0]

theorem Rect_foldl_copyCol :
    ∀ (ms : List (String × String)) {f : PyFrame}, Rect f →
      Rect (ms.foldl (fun acc p => copyCol acc p.1 p.2) f)
  | [], _, hf => hf
  | m :: ms, f, hf => by
    simp only [List.foldl_cons]
    exact Rect_foldl_copyCol ms (Rect_copyCol hf m.1 m.2)

theorem Rect_map_columns {f : PyFrame} (hf : Rect f) (ft : FileType) :
    Rect (map_columns_to_output f ft) := by
  unfold map_columns_to_output
  apply Rect_foldl_copyCol
  intro r hr
  simp only [List.length_map]
  exact hf r hr

theorem Rect_mapCol {f : PyFrame} (hf : Rect f) (name : String) (g : String → String) :
    Rect (mapCol f name g) := by
  unfold mapCol
  cases h : idxOf name f.headers with
  | none => exact hf
  | some i =>
    intro r hr
    rcases List.mem_map.mp hr with ⟨r0, hr0, rfl⟩
    simp [List.length_set, hf r0 hr0]

theorem Rect_days_stage {f : PyFrame} (hf : Rect f) (ft : FileType) :
    Rect (days_stage f ft) := by
  simp only [days_stage]
  split
  · exact Rect_mapCol (Rect_map_columns hf ft) _ _
  · exact Rect_map_columns hf ft

theorem Rect_meta_stage {f : PyFrame} (hf : Rect f) (week : Nat) (src : String)
    (ft : FileType) : Rect (meta_stage f week src ft) := by
  unfold meta_stage
  exact Rect_setColConst
    (Rect_setColConst (Rect_setColConst (Rect_days_stage hf ft) _ _) _ _) _ _

/-- C2: canonical schema invariant.  For every rectangular raw frame that
process_file accepts (nonempty on both axes, i.e. pandas df.empty is false),
the returned table has exactly the canonical output_headers, in the
documented order (every row has exactly one cell per canonical field, and
source columns outside the canonical set are dropped by the final
df[output_headers] selection); and every canonical field still absent after
mapping, cleaning, and metadata attachment (the meta_stage) is backfilled
with the empty string in every row. -/
theorem claim_C2_canonical_schema :
    ∀ (f : PyFrame) (week_num : Nat) (source : String) (file_type : FileType)
      (out : PyFrame), Rect f →
      process_file f week_num source file_type = some out →
      out.headers = output_headers ∧
        (∀ r ∈ out.rows, r.length = output_headers.length) ∧
        (∀ col ∈ output_headers,
          ¬ (col ∈ (meta_stage f week_num source file_type).headers) →
          ∀ r ∈ out.rows, colVal out col r = "") := by
  intro f week src ft out hf hp
  simp only [process_file] at hp
  cases hcond : (f.rows.isEmpty || f.headers.isEmpty)
  case true =>
    rw [hcond] at hp
    simp at hp
  case false =>
    rw [hcond] at hp
    simp only [Bool.false_eq_true, if_false, Option.some.injEq] at hp
    generalize hB : backfill_stage f week src ft = B at hp
    rw [← hp]
    refine ⟨rfl, ?_, ?_⟩
    · intro r hr
      rcases List.mem_map.mp hr with ⟨r0, _, rfl⟩
      simp [List.length_map]
    · intro col hcolmem hcolnot r hr
      rcases List.mem_map.mp hr with ⟨r0, hr0, rfl⟩
      have hRmeta := Rect_meta_stage hf week src ft
      obtain ⟨_, _, hvB⟩ :=
        backfill_sets output_headers _ col hRmeta hcolmem hcolnot
      have hfold : output_headers.foldl backfillStep (meta_stage f week src ft) = B := hB
      rw [hfold] at hvB
      have hidxout : ∃ i, idxOf col output_headers = some i := by
        cases h : idxOf col output_headers with
        | some i => exact ⟨i, rfl⟩
        | none => exact absurd (idxOf_eq_none.mp h) (by simp [hcolmem])
      rcases hidxout with ⟨i, hi⟩
      simp only [colVal, hi]
      rw [getD_map (idxOf_lt_length hi) "" ""]
      rw [idxOf_getD hi]
      exact hvB r0 hr0

theorem claim_C2_witness :
    Rect ⟨["Booking number"], [["S1"]]⟩ ∧
      process_file ⟨["Booking number"], [["S1"]]⟩ 5 "a.xlsx" FileType.LS_Template
        = some ⟨output_headers,
            [["", "", "", "", "", "S1", "5", "a.xlsx", "", "", "", "", "LS_Template", ""]]⟩ ∧
      (⟨output_headers,
          [["", "", "", "", "", "S1", "5", "a.xlsx", "", "", "", "", "LS_Template",
            ""]]⟩ : PyFrame).headers = output_headers := by
  have h1 : Rect (⟨["Booking number"], [["S1"]]⟩ : PyFrame) := by
    intro r hr
    simp only [List.mem_singleton] at hr
    subst hr
    rfl
  have h2 : process_file ⟨["Booking number"], [["S1"]]⟩ 5 "a.xlsx" FileType.LS_Template
      = some ⟨output_headers,
          [["", "", "", "", "", "S1", "5", "a.xlsx", "", "", "", "", "LS_Template", ""]]⟩ := by
    decide
  exact ⟨h1, h2,
    (claim_C2_canonical_schema _ 5 "a.xlsx" FileType.LS_Template _ h1 h2).1⟩

end PBI

section Examples

open PBI

example : clean_days_shape (some "29 to 35 days") = .range 29 35 := by decide
example : clean_days_shape (some "20-25") = .range 20 25 := by decide
example : clean_days_shape (some "25 days") = .single 25 := by decide
example : clean_days_shape (some "-5 days") = .single 5 := by decide
example : clean_days_shape (some "") = .undefined := by decide
example : clean_days_value none = none := rfl
example : clean_days_shape (some "abc") = .undefined := by decide
example : clean_days_shape (some "1 to 2-3") = .range 1 2 := by decide
example : clean_days_shape (some "15–20") = .range 15 20 := by decide
example : clean_days_shape (some "3~9") = .range 3 9 := by decide
example : clean_days_shape (some "  30  ") = .single 30 := by decide
example : clean_days_shape (some "5 TO 7") = .range 5 7 := by decide

example : clean_days_value (some "29 to 35 days") = some 32 := by
  have h : clean_days_shape (some "29 to 35 days") = .range 29 35 := by decide
  rw [clean_days_value, h]
  norm_num [DaysResult.value]

example : clean_days_value (some "20-25") = some (45 / 2) := by
  have h : clean_days_shape (some "20-25") = .range 20 25 := by decide
  rw [clean_days_value, h]
  norm_num [DaysResult.value]

example : get_file_type "Export_Longstandings_week26.xlsx" = some .Export_Longstandings := by
  decide

example : get_file_type "MY Empties Longstanding.xls" = some .Export_Empties := by decide

example : get_file_type "LS Template IN.xlsx" = some .LS_Template := by decide

example : get_file_type "Raw Data.xlsx" = none := by decide

example : parse_week_input "26,28-30" = [26, 28, 29, 30] := by decide

example : parse_week_input "5-5" = [5] := by decide

example : parse_week_input "x,7" = [7] := by decide

example : parse_week_input "-5" = [] := by decide

example : parse_week_input "30-28" = [] := by decide

example : parse_week_input " 7 , 3 " = [3, 7] := by decide

example : create_master_file [] (some [exRow5]) [5] = none := by decide

example : masterAfterRun (some [exRow5]) [] [5] = some [exRow5] := by decide

example : create_master_file [[exRow5]] (some [exRow6]) [5] = some [exRow5, exRow6] := by
  decide

example : create_master_file [[exRow5]] (some [exRow5, exRow6]) [5]
    = some [exRow5, exRow6] := by decide

example : (runSummary "2025" "July" wdemo).map (fun r => r.shipmentsExtracted)
    = [1, 2] := by decide

example : process_file ⟨["Booking number"], [["S1"]]⟩ 5 "a.xlsx" .LS_Template
    = some ⟨output_headers,
        [["", "", "", "", "", "S1", "5", "a.xlsx", "", "", "", "", "LS_Template", ""]]⟩ := by
  decide

end Examples
